import Mathlib

/-
Verification development for the MatrixMarket reader (`matrixmarket.hpp`).

The reader is embedded shallowly:
* an input file is modelled as its list of lines (`List String`), i.e. the
  sequence of strings successive `std::getline` calls on the `ifstream`
  produce; reading past the end of the file yields `""`, matching C++
  `getline`, which erases the target string on failure;
* `CoordType` is instantiated at `ℕ` (the demo programs use `unsigned int`;
  none of the verified properties involve wrap-around at the word size);
* `ValueType` is instantiated at `ℚ`, with stream extraction modelled for
  plain decimal numerals (sign, digits, optional fraction), which covers the
  values the verified properties mention exactly;
* C++ exceptions are modelled with `Except String`, carrying the
  `std::invalid_argument` message;
* `std::sort` guarantees only that the result is a permutation of the input
  ordered by the comparator — the relative order of equivalent elements is
  explicitly unspecified.  The relations `ReadCSR` / `ReadCSC` therefore
  relate a file to every result some admissible ordering of equal keys
  produces, while `read_csr` / `read_csc` are executable instances that
  realize one admissible behaviour (a stable insertion sort).
-/

namespace MatrixMarket

/-- `enum class SymmetryType { GENERAL, SYMMETRIC }`. -/
inductive SymmetryType where
  | GENERAL
  | SYMMETRIC
deriving DecidableEq

/-- `enum class ValueFormat { REAL, INTEGER, PATTERN }`. -/
inductive ValueFormat where
  | REAL
  | INTEGER
  | PATTERN
deriving DecidableEq

/-- The `Header<CoordType>` struct, with `CoordType` instantiated at `ℕ`. -/
structure Header where
  symmetry : SymmetryType
  value_type : ValueFormat
  num_rows : ℕ
  num_cols : ℕ
  num_nonzeros : ℕ
deriving DecidableEq

/-- The loop inside the `Tokens` constructor: repeated
    `std::getline(iss, token, sep)`.  `acc` holds the characters of the token
    currently being extracted (in reverse).  At the end of the line a final
    token is produced only when at least one character (possibly just a
    delimiter) was extracted since the previous token, matching `getline`,
    which fails — ending the loop — exactly when it extracts nothing. -/
def lexAux (sep : Char) (acc : List Char) : List Char → List String
  | [] => if acc.isEmpty then [] else [String.mk acc.reverse]
  | c :: cs =>
    if c = sep then String.mk acc.reverse :: lexAux sep [] cs
    else lexAux sep (c :: acc) cs

/-- `Tokens(line, ' ')`: split a line on single spaces, preserving interior
    empty segments, dropping nothing else. -/
def tokens (s : String) : List String :=
  lexAux ' ' [] s.toList

/-- Whitespace skipped by formatted stream extraction (`std::isspace` in the
    default locale). -/
def isStreamSpace (c : Char) : Bool :=
  c = ' ' ∨ c = '\t' ∨ c = '\n' ∨ c = '\r' ∨ c = '\x0b' ∨ c = '\x0c'

/-- Value of a (possibly empty) string of decimal digits. -/
def digitsVal (cs : List Char) : ℕ :=
  cs.foldl (fun n c => 10 * n + (c.toNat - 48)) 0

/-- Model of `parse_int<CoordType>` (`iss >> int_val`) at `CoordType = ℕ`:
    skip whitespace, accept an optional `+`, then read a maximal run of
    decimal digits.  Since C++11 a failed extraction stores `0` in the
    target, so a token with no leading numeral silently yields `0`.
    (A `-` numeral, which for an unsigned `CoordType` wraps to a huge value
    and is then rejected by the bounds check, is modelled by the same `0`
    fallback, which the bounds check rejects as well.) -/
def parse_int (s : String) : ℕ :=
  let cs := s.toList.dropWhile isStreamSpace
  let cs := if cs.headD ' ' = '+' then cs.tail else cs
  digitsVal (cs.takeWhile Char.isDigit)

/-- Model of `parse_num<ValueType>` (`iss >> num_val`) at `ValueType = ℚ` for
    plain decimal numerals: skip whitespace, optional sign, integer digits,
    optional `.` and fraction digits.  A token with no digits at all silently
    yields `0` (C++11 failed-extraction behaviour); exponent suffixes are not
    modelled. -/
def parse_num (s : String) : ℚ :=
  let cs0 := s.toList.dropWhile isStreamSpace
  let neg := cs0.headD ' ' = '-'
  let cs := if cs0.headD ' ' = '-' ∨ cs0.headD ' ' = '+' then cs0.tail else cs0
  let ip := cs.takeWhile Char.isDigit
  let rest := cs.dropWhile Char.isDigit
  let fp := if rest.headD ' ' = '.' then rest.tail.takeWhile Char.isDigit else []
  if ip.isEmpty ∧ fp.isEmpty then 0
  else
    let n : ℤ := digitsVal ip * 10 ^ fp.length + digitsVal fp
    mkRat (if neg then -n else n) (10 ^ fp.length)

/-- A token whose first non-whitespace character can not begin a numeral:
    on such a token formatted extraction fails and (since C++11) stores the
    zero value. -/
def noNumericPrefix (s : String) : Prop :=
  let c := (s.toList.dropWhile isStreamSpace).headD ' '
  c ≠ '+' ∧ c ≠ '-' ∧ c ≠ '.' ∧ c.isDigit = false

instance (s : String) : Decidable (noNumericPrefix s) := by
  unfold noNumericPrefix
  infer_instance

/-- `parse_value_fmt`. -/
def parse_value_fmt (value_fmt_string : String) : Except String ValueFormat :=
  if value_fmt_string = "real" then .ok ValueFormat.REAL
  else if value_fmt_string = "integer" then .ok ValueFormat.INTEGER
  else if value_fmt_string = "pattern" then .ok ValueFormat.PATTERN
  else .error "Bad Header: unknown value format"

/-- `parse_symmetry`. -/
def parse_symmetry (symmetry_string : String) : Except String SymmetryType :=
  if symmetry_string = "general" then .ok SymmetryType.GENERAL
  else if symmetry_string = "symmetric" then .ok SymmetryType.SYMMETRIC
  else .error "Bad Header: unknown symmetry"

/-- `std::getline(f, line)` on the remaining lines of the file: past the end
    of the file it produces `""` (the C++ `getline` erases `line` when it
    fails at end-of-file). -/
def getLine : List String → String × List String
  | [] => ("", [])
  | l :: ls => (l, ls)

/-- The C++ test `line[0] == '%'`; on an empty line `line[0]` reads the
    terminating null character, which is not `'%'`. -/
def firstIsPercent (s : String) : Bool :=
  match s.toList with
  | [] => false
  | c :: _ => c = '%'

/-- The format-line half of `read_header`: token count, the three literals,
    then the value-format and symmetry literals. -/
def read_format_line (line : String) : Except String (ValueFormat × SymmetryType) :=
  let format_tokens := tokens line
  if format_tokens.length ≠ 5 then .error "Bad Header: ill-shaped format line"
  else if format_tokens.getD 0 "" ≠ "%%MatrixMarket" then
    .error "Bad Header: missing %%MatrixMarket"
  else if format_tokens.getD 1 "" ≠ "matrix" then
    .error "Bad Header: only matrix supported"
  else if format_tokens.getD 2 "" ≠ "coordinate" then
    .error "Bad Header: only coordinate supported"
  else do
    let value_fmt ← parse_value_fmt (format_tokens.getD 3 "")
    let symmetry ← parse_symmetry (format_tokens.getD 4 "")
    return (value_fmt, symmetry)

/-- The comment-skipping loop `do getline while (line[0] == '%')`: it always
    reads at least one line and stops at the first line that does not start
    with `'%'`, which becomes the dimension line. -/
def skip_comments : List String → String × List String
  | [] => ("", [])
  | l :: ls => if firstIsPercent l then skip_comments ls else (l, ls)

/-- The dimension-line half of `read_header`: exactly 3 tokens, parsed in
    order as `num_rows`, `num_cols`, `num_nonzeros`. -/
def read_dim_line (line : String) : Except String (ℕ × ℕ × ℕ) :=
  let mtx_size_tokens := tokens line
  if mtx_size_tokens.length ≠ 3 then .error "Bad Header: missing matrix size"
  else .ok (parse_int (mtx_size_tokens.getD 0 ""),
            parse_int (mtx_size_tokens.getD 1 ""),
            parse_int (mtx_size_tokens.getD 2 ""))

/-- `read_header<CoordType>`. -/
def read_header (lines : List String) : Except String (Header × List String) := do
  let (line, rest) := getLine lines
  let (value_fmt, symmetry) ← read_format_line line
  let (dim_line, rest2) := skip_comments rest
  let (num_rows, num_cols, num_nonzeros) ← read_dim_line dim_line
  return ({ symmetry := symmetry, value_type := value_fmt, num_rows := num_rows,
            num_cols := num_cols, num_nonzeros := num_nonzeros }, rest2)

/-- The `Nonzero<CoordType, ValueType>` struct (a COO entry, 0-indexed). -/
structure Nonzero where
  row : ℕ
  col : ℕ
  value : ℚ
deriving DecidableEq

/-- The mirrored entry `{col, row, value}` appended for off-diagonal entries
    of a symmetric file. -/
def Nonzero.transpose (nz : Nonzero) : Nonzero :=
  { row := nz.col, col := nz.row, value := nz.value }

/-- The body of one iteration of the coordinate-reading loop (shared verbatim
    between `read_csr` and `read_csc`): shape check on the token count,
    pops of `row` and `col`, the implicit `1` for `PATTERN` files, bounds
    checks on the 1-indexed values, then the shift to 0-indexing. -/
def parse_data_line (value_type : ValueFormat) (num_rows num_cols : ℕ)
    (line : String) : Except String Nonzero :=
  let tks := tokens line
  if value_type = ValueFormat.PATTERN ∧ tks.length ≠ 2 then
    .error "Bad Matrix: ill-shaped pattern line"
  else if value_type ≠ ValueFormat.PATTERN ∧ tks.length ≠ 3 then
    .error "Bad Matrix: ill-shaped value line"
  else
    let row := parse_int (tks.getD 0 "")
    let col := parse_int (tks.getD 1 "")
    let value := if value_type = ValueFormat.PATTERN then 1
                 else parse_num (tks.getD 2 "")
    if row < 1 ∨ row > num_rows then .error "Bad Matrix: row out of bounds"
    else if col < 1 ∨ col > num_cols then .error "Bad Matrix: col out of bounds"
    else .ok { row := row - 1, col := col - 1, value := value }

/-- The `push_back` pair at the end of the loop body: the entry itself,
    plus its mirror when the file is symmetric and the entry off-diagonal. -/
def expand_symmetry (symmetry : SymmetryType) (nz : Nonzero) : List Nonzero :=
  if symmetry = SymmetryType.SYMMETRIC ∧ nz.row ≠ nz.col then [nz, nz.transpose]
  else [nz]

/-- The coordinate-reading loop: `num_nonzeros` iterations of
    getline / tokenize / parse / bounds-check / append (shared verbatim
    between `read_csr` and `read_csc`). -/
def read_nonzeros (hdr : Header) : ℕ → List String → Except String (List Nonzero × List String)
  | 0, lines => .ok ([], lines)
  | n + 1, lines => do
    let (line, rest) := getLine lines
    let nz ← parse_data_line hdr.value_type hdr.num_rows hdr.num_cols line
    let (nzs, rest2) ← read_nonzeros hdr n rest
    return (expand_symmetry hdr.symmetry nz ++ nzs, rest2)

/-- Everything `read_csr` / `read_csc` do before their sort: parse the
    header, then accumulate the symmetry-expanded COO entry list.  Also
    returns the lines left unread. -/
def decode_coo (lines : List String) : Except String (Header × List Nonzero × List String) :=
  match read_header lines with
  | .error e => .error e
  | .ok (hdr, rest) =>
    match read_nonzeros hdr hdr.num_nonzeros rest with
    | .error e => .error e
    | .ok (nzs, rest2) => .ok (hdr, nzs, rest2)

/-- The weak order underlying the `read_csr` comparator
    `std::tie(a.row, a.col) < std::tie(b.row, b.col)`: `keyRowLe a b` iff
    `¬ (key b < key a)`, i.e. `(a.row, a.col) ≤ (b.row, b.col)`
    lexicographically. -/
def keyRowLe (a b : Nonzero) : Prop :=
  a.row < b.row ∨ (a.row = b.row ∧ a.col ≤ b.col)

/-- The weak order underlying the `read_csc` comparator
    `std::tie(a.col, a.row) < std::tie(b.col, b.row)`. -/
def keyColLe (a b : Nonzero) : Prop :=
  a.col < b.col ∨ (a.col = b.col ∧ a.row ≤ b.row)

instance : DecidableRel keyRowLe := fun a b => by
  unfold keyRowLe; infer_instance

instance : DecidableRel keyColLe := fun a b => by
  unfold keyColLe; infer_instance

instance : IsTotal Nonzero keyRowLe where
  total a b := by
    unfold keyRowLe
    rcases Nat.lt_trichotomy a.row b.row with h | h | h
    · exact Or.inl (Or.inl h)
    · rcases Nat.le_total a.col b.col with hc | hc
      · exact Or.inl (Or.inr ⟨h, hc⟩)
      · exact Or.inr (Or.inr ⟨h.symm, hc⟩)
    · exact Or.inr (Or.inl h)

instance : IsTrans Nonzero keyRowLe where
  trans a b c hab hbc := by
    unfold keyRowLe at *
    rcases hab with h1 | ⟨h1, h1c⟩ <;> rcases hbc with h2 | ⟨h2, h2c⟩
    · exact Or.inl (h1.trans h2)
    · exact Or.inl (h2 ▸ h1)
    · exact Or.inl (h1 ▸ h2)
    · exact Or.inr ⟨h1.trans h2, h1c.trans h2c⟩

instance : IsTotal Nonzero keyColLe where
  total a b := by
    unfold keyColLe
    rcases Nat.lt_trichotomy a.col b.col with h | h | h
    · exact Or.inl (Or.inl h)
    · rcases Nat.le_total a.row b.row with hc | hc
      · exact Or.inl (Or.inr ⟨h, hc⟩)
      · exact Or.inr (Or.inr ⟨h.symm, hc⟩)
    · exact Or.inr (Or.inl h)

instance : IsTrans Nonzero keyColLe where
  trans a b c hab hbc := by
    unfold keyColLe at *
    rcases hab with h1 | ⟨h1, h1c⟩ <;> rcases hbc with h2 | ⟨h2, h2c⟩
    · exact Or.inl (h1.trans h2)
    · exact Or.inl (h2 ▸ h1)
    · exact Or.inl (h1 ▸ h2)
    · exact Or.inr ⟨h1.trans h2, h1c.trans h2c⟩

/-- The state mutated by the compression loop: `current_row` (`current_col`
    for CSC), the offsets array, the minor-index array and the values
    array. -/
structure CompressState where
  cur : ℕ
  offs : List ℕ
  minors : List ℕ
  vals : List ℚ
deriving DecidableEq

/-- The `for (const auto& nz : nonzeros)` compression loop of `read_csr`,
    keyed on `row` (the `read_csc` loop is the same code with `row`/`col`
    exchanged).  The inner `while (current_row < nz.row)` pushes the current
    minor-array length once per unit of cursor advance. -/
def compress_loop : List Nonzero → CompressState → CompressState
  | [], st => st
  | nz :: rest, st =>
    compress_loop rest
      { cur := max st.cur nz.row,
        offs := st.offs ++ List.replicate (nz.row - st.cur) st.minors.length,
        minors := st.minors ++ [nz.col],
        vals := st.vals ++ [nz.value] }

/-- The full compressor keyed on `row`: `row_offsets.push_back(0)`, the main
    loop, then the trailing `while (current_row < num_rows)` padding. -/
def compress (major_dim : ℕ) (nzs : List Nonzero) : CompressState :=
  let st := compress_loop nzs { cur := 0, offs := [0], minors := [], vals := [] }
  { cur := max st.cur major_dim,
    offs := st.offs ++ List.replicate (major_dim - st.cur) st.minors.length,
    minors := st.minors,
    vals := st.vals }

/-- `CSRMatrix<CoordType, ValueType>` at `CoordType = ℕ`, `ValueType = ℚ`. -/
structure CSRMatrix where
  num_rows : ℕ
  num_cols : ℕ
  num_nonzeros : ℕ
  row_offsets : List ℕ
  col_indices : List ℕ
  values : List ℚ
deriving DecidableEq

/-- `CSCMatrix<CoordType, ValueType>` at `CoordType = ℕ`, `ValueType = ℚ`. -/
structure CSCMatrix where
  num_rows : ℕ
  num_cols : ℕ
  num_nonzeros : ℕ
  col_offsets : List ℕ
  row_indices : List ℕ
  values : List ℚ
deriving DecidableEq

/-- The tail of `read_csr` after `std::sort`: compress an (already sorted)
    entry list into the returned `CSRMatrix`; `num_nonzeros` is
    `values.size()`. -/
def csr_of_sorted (hdr : Header) (s : List Nonzero) : CSRMatrix :=
  let st := compress hdr.num_rows s
  { num_rows := hdr.num_rows, num_cols := hdr.num_cols,
    num_nonzeros := st.vals.length,
    row_offsets := st.offs, col_indices := st.minors, values := st.vals }

/-- The tail of `read_csc` after `std::sort`.  The CSC compression loop is
    the CSR loop with `row` and `col` exchanged, which transposing every
    entry realizes: the offsets are keyed on the original `col` and the
    minor array holds the original `row`s. -/
def csc_of_sorted (hdr : Header) (s : List Nonzero) : CSCMatrix :=
  let st := compress hdr.num_cols (s.map Nonzero.transpose)
  { num_rows := hdr.num_rows, num_cols := hdr.num_cols,
    num_nonzeros := st.vals.length,
    col_offsets := st.offs, row_indices := st.minors, values := st.vals }

/-- Executable `read_csr<ℕ, ℚ>` on the lines of a file, realizing one
    admissible behaviour of `std::sort` (a stable insertion sort). -/
def read_csr (lines : List String) : Except String CSRMatrix := do
  let (hdr, nzs, _) ← decode_coo lines
  return csr_of_sorted hdr (List.insertionSort keyRowLe nzs)

/-- Executable `read_csc<ℕ, ℚ>`, realizing one admissible behaviour of
    `std::sort`. -/
def read_csc (lines : List String) : Except String CSCMatrix := do
  let (hdr, nzs, _) ← decode_coo lines
  return csc_of_sorted hdr (List.insertionSort keyColLe nzs)

/-- All behaviours of `read_csr<ℕ, ℚ>`: `std::sort` only guarantees a
    permutation of the entries that is ordered under the comparator (the
    relative order of entries with equal `(row, col)` keys is unspecified),
    so the decode may return the compression of any such permutation. -/
def ReadCSR (lines : List String) (res : Except String CSRMatrix) : Prop :=
  match decode_coo lines with
  | .error e => res = .error e
  | .ok (hdr, nzs, _) =>
    ∃ s, List.Perm nzs s ∧ s.Sorted keyRowLe ∧ res = .ok (csr_of_sorted hdr s)

/-- All behaviours of `read_csc<ℕ, ℚ>`. -/
def ReadCSC (lines : List String) (res : Except String CSCMatrix) : Prop :=
  match decode_coo lines with
  | .error e => res = .error e
  | .ok (hdr, nzs, _) =>
    ∃ s, List.Perm nzs s ∧ s.Sorted keyColLe ∧ res = .ok (csc_of_sorted hdr s)

/-- The entries of major index `m` in a compressed matrix: the slice
    `[offs[m], offs[m+1])` of the minor-index array. -/
def major_slice (offs : List ℕ) (minors : List ℕ) (m : ℕ) : List ℕ :=
  ((minors.drop (offs.getD m 0)).take (offs.getD (m + 1) 0 - offs.getD m 0))

/-- The `(row, col, value)` triples a `CSRMatrix` represents, row by row. -/
def csr_triples (m : CSRMatrix) : List (ℕ × ℕ × ℚ) :=
  (List.range m.num_rows).flatMap (fun r =>
    (((m.col_indices.zip m.values).drop (m.row_offsets.getD r 0)).take
        (m.row_offsets.getD (r + 1) 0 - m.row_offsets.getD r 0)).map
      (fun cv => (r, cv.1, cv.2)))

/-- The `(row, col, value)` triples a `CSCMatrix` represents, column by
    column. -/
def csc_triples (m : CSCMatrix) : List (ℕ × ℕ × ℚ) :=
  (List.range m.num_cols).flatMap (fun c =>
    (((m.row_indices.zip m.values).drop (m.col_offsets.getD c 0)).take
        (m.col_offsets.getD (c + 1) 0 - m.col_offsets.getD c 0)).map
      (fun rv => (rv.1, c, rv.2)))

/-- Comparability of rows, the part of the sort order the compression loop
    relies on. -/
def rowLe (a b : Nonzero) : Prop :=
  a.row ≤ b.row

theorem keyRowLe_rowLe {a b : Nonzero} (h : keyRowLe a b) : rowLe a b := by
  rcases h with h | ⟨h, _⟩
  · exact Nat.le_of_lt h
  · exact Nat.le_of_eq h

theorem sorted_keyRowLe_rows {s : List Nonzero} (h : s.Sorted keyRowLe) :
    List.Pairwise rowLe s :=
  h.imp keyRowLe_rowLe

theorem sorted_keyColLe_transpose {s : List Nonzero} (h : s.Sorted keyColLe) :
    List.Pairwise rowLe (s.map Nonzero.transpose) := by
  rw [List.pairwise_map]
  refine h.imp ?_
  intro a b hab
  rcases hab with hab | ⟨hab, hab2⟩
  · exact Nat.le_of_lt hab
  · exact Nat.le_of_eq hab

theorem ReadCSR_error_iff {lines : List String} {e : String}
    (h : decode_coo lines = .error e) (res : Except String CSRMatrix) :
    ReadCSR lines res ↔ res = .error e := by
  unfold ReadCSR
  rw [h]

theorem ReadCSR_ok_iff {lines : List String} {hdr : Header} {nzs : List Nonzero}
    {rest : List String} (h : decode_coo lines = .ok (hdr, nzs, rest))
    (res : Except String CSRMatrix) :
    ReadCSR lines res ↔
      ∃ s, List.Perm nzs s ∧ s.Sorted keyRowLe ∧ res = .ok (csr_of_sorted hdr s) := by
  unfold ReadCSR
  rw [h]

theorem ReadCSC_error_iff {lines : List String} {e : String}
    (h : decode_coo lines = .error e) (res : Except String CSCMatrix) :
    ReadCSC lines res ↔ res = .error e := by
  unfold ReadCSC
  rw [h]

theorem ReadCSC_ok_iff {lines : List String} {hdr : Header} {nzs : List Nonzero}
    {rest : List String} (h : decode_coo lines = .ok (hdr, nzs, rest))
    (res : Except String CSCMatrix) :
    ReadCSC lines res ↔
      ∃ s, List.Perm nzs s ∧ s.Sorted keyColLe ∧ res = .ok (csc_of_sorted hdr s) := by
  unfold ReadCSC
  rw [h]

/-- The executable reader realizes one of the behaviours `std::sort`
    admits. -/
theorem read_csr_mem (lines : List String) : ReadCSR lines (read_csr lines) := by
  unfold ReadCSR read_csr
  cases h : decode_coo lines with
  | error e => rfl
  | ok v =>
    obtain ⟨hdr, nzs, rest⟩ := v
    exact ⟨List.insertionSort keyRowLe nzs, (List.perm_insertionSort keyRowLe nzs).symm,
      List.sorted_insertionSort keyRowLe nzs, rfl⟩

/-- The executable column-major reader realizes one of the behaviours
    `std::sort` admits. -/
theorem read_csc_mem (lines : List String) : ReadCSC lines (read_csc lines) := by
  unfold ReadCSC read_csc
  cases h : decode_coo lines with
  | error e => rfl
  | ok v =>
    obtain ⟨hdr, nzs, rest⟩ := v
    exact ⟨List.insertionSort keyColLe nzs, (List.perm_insertionSort keyColLe nzs).symm,
      List.sorted_insertionSort keyColLe nzs, rfl⟩

/-- Entries the data-line parser accepts respect the declared dimensions
    (the 1-indexed bounds check, then the shift to 0-indexing). -/
theorem parse_data_line_bounds {value_type : ValueFormat} {nrows ncols : ℕ}
    {line : String} {nz : Nonzero}
    (h : parse_data_line value_type nrows ncols line = .ok nz) :
    nz.row < nrows ∧ nz.col < ncols := by
  simp only [parse_data_line] at h
  split_ifs at h
  all_goals first
    | exact Except.noConfusion h
    | · injection h with h'
        subst h'
        refine ⟨?_, ?_⟩ <;> dsimp only <;> omega

theorem expand_symmetry_mem {symmetry : SymmetryType} {nz x : Nonzero}
    (hx : x ∈ expand_symmetry symmetry nz) : x = nz ∨ x = nz.transpose := by
  unfold expand_symmetry at hx
  split_ifs at hx with hcase
  · rcases List.mem_cons.mp hx with h | h
    · exact Or.inl h
    · exact Or.inr (List.mem_singleton.mp h)
  · exact Or.inl (List.mem_singleton.mp hx)

theorem expand_symmetry_general (nz : Nonzero) :
    expand_symmetry SymmetryType.GENERAL nz = [nz] := by
  unfold expand_symmetry
  simp

/-- One step of the coordinate-reading loop, with the popped line made
    explicit. -/
theorem read_nonzeros_succ (hdr : Header) (n : ℕ) (lines : List String) :
    read_nonzeros hdr (n + 1) lines =
      (do
        let nz ← parse_data_line hdr.value_type hdr.num_rows hdr.num_cols (getLine lines).1
        let (nzs, rest2) ← read_nonzeros hdr n (getLine lines).2
        pure (expand_symmetry hdr.symmetry nz ++ nzs, rest2)) := by
  cases lines <;> rfl

/-- The accumulated entry list is the concatenation of the per-line
    symmetry expansions, one block per (in-bounds) data line, in arrival
    order. -/
theorem read_nonzeros_expand (hdr : Header) :
    ∀ (n : ℕ) (lines : List String) (nzs : List Nonzero) (rest : List String),
      read_nonzeros hdr n lines = .ok (nzs, rest) →
      ∃ raw : List Nonzero, raw.length = n ∧
        nzs = raw.flatMap (expand_symmetry hdr.symmetry) ∧
        ∀ x ∈ raw, x.row < hdr.num_rows ∧ x.col < hdr.num_cols
  | 0, lines, nzs, rest, h => by
    unfold read_nonzeros at h
    injection h with h'
    injection h' with h1 h2
    subst h1
    exact ⟨[], rfl, rfl, by intro x hx; cases hx⟩
  | n + 1, lines, nzs, rest, h => by
    rw [read_nonzeros_succ] at h
    cases hp : parse_data_line hdr.value_type hdr.num_rows hdr.num_cols (getLine lines).1 with
    | error e => rw [hp] at h; exact Except.noConfusion h
    | ok nz =>
      rw [hp] at h
      cases hrec : read_nonzeros hdr n (getLine lines).2 with
      | error e => rw [hrec] at h; exact Except.noConfusion h
      | ok v =>
        obtain ⟨nzs2, rest2⟩ := v
        rw [hrec] at h
        injection h with h'
        injection h' with h1 h2
        subst h1
        obtain ⟨raw, hlen, hflat, hbd⟩ :=
          read_nonzeros_expand hdr n (getLine lines).2 nzs2 rest2 hrec
        refine ⟨nz :: raw, by simp [hlen], by simp [hflat], ?_⟩
        intro x hx
        rcases List.mem_cons.mp hx with h | h
        · subst h; exact parse_data_line_bounds hp
        · exact hbd x h

/-- For a `general` file every accumulated entry is strictly inside the
    declared dimensions. -/
theorem read_nonzeros_bounds_general {hdr : Header}
    (hsym : hdr.symmetry = SymmetryType.GENERAL)
    {n : ℕ} {lines : List String} {nzs : List Nonzero} {rest : List String}
    (h : read_nonzeros hdr n lines = .ok (nzs, rest)) :
    ∀ x ∈ nzs, x.row < hdr.num_rows ∧ x.col < hdr.num_cols := by
  obtain ⟨raw, _, hflat, hbd⟩ := read_nonzeros_expand hdr n lines nzs rest h
  subst hflat
  intro x hx
  obtain ⟨y, hy, hxy⟩ := List.mem_flatMap.mp hx
  rw [hsym, expand_symmetry_general] at hxy
  have hx2 : x = y := List.mem_singleton.mp hxy
  rw [hx2]
  exact hbd y hy

/-- For a square matrix every accumulated entry (mirrored or not) is
    strictly inside both dimensions. -/
theorem read_nonzeros_bounds_square {hdr : Header}
    (hsq : hdr.num_rows = hdr.num_cols)
    {n : ℕ} {lines : List String} {nzs : List Nonzero} {rest : List String}
    (h : read_nonzeros hdr n lines = .ok (nzs, rest)) :
    ∀ x ∈ nzs, x.row < hdr.num_rows ∧ x.col < hdr.num_cols := by
  obtain ⟨raw, _, hflat, hbd⟩ := read_nonzeros_expand hdr n lines nzs rest h
  subst hflat
  intro x hx
  obtain ⟨y, hy, hxy⟩ := List.mem_flatMap.mp hx
  obtain ⟨hr, hc⟩ := hbd y hy
  rcases expand_symmetry_mem hxy with h1 | h1
  · subst h1; exact ⟨hr, hc⟩
  · subst h1
    exact ⟨by rw [hsq]; exact hc, by rw [← hsq]; exact hr⟩

/-- The minor-index and value arrays produced by the compression loop: each
    entry appends its column (resp. value), regardless of sorting. -/
theorem compress_loop_arrays :
    ∀ (s : List Nonzero) (st : CompressState),
      (compress_loop s st).minors = st.minors ++ s.map (fun nz => nz.col) ∧
      (compress_loop s st).vals = st.vals ++ s.map (fun nz => nz.value)
  | [], st => by simp [compress_loop]
  | nz :: rest, st => by
    simp only [compress_loop]
    obtain ⟨h1, h2⟩ := compress_loop_arrays rest
      { cur := max st.cur nz.row,
        offs := st.offs ++ List.replicate (nz.row - st.cur) st.minors.length,
        minors := st.minors ++ [nz.col],
        vals := st.vals ++ [nz.value] }
    rw [h1, h2]
    simp

/-- The offsets the loop produces, already combined with the trailing
    padding: one entry per major index in `(st.cur, R]`, each holding how
    many minors were emitted before that major index starts. -/
theorem compress_loop_offs (R : ℕ) :
    ∀ (s : List Nonzero) (st : CompressState),
      List.Pairwise rowLe s →
      (∀ nz ∈ s, st.cur ≤ nz.row) →
      (∀ nz ∈ s, nz.row < R) →
      st.cur ≤ R →
      (compress_loop s st).cur ≤ R ∧
      (compress_loop s st).offs
          ++ List.replicate (R - (compress_loop s st).cur) (compress_loop s st).minors.length
        = st.offs ++ (List.range' (st.cur + 1) (R - st.cur)).map
            (fun r => st.minors.length + s.countP (fun nz => nz.row < r))
  | [], st, _, _, _, hcur => by
    refine ⟨by simpa [compress_loop] using hcur, ?_⟩
    simp only [compress_loop]
    congr 1
    have hmem : ∀ b ∈ (List.range' (st.cur + 1) (R - st.cur)).map
        (fun r => st.minors.length + ([] : List Nonzero).countP (fun nz => nz.row < r)),
        b = st.minors.length := by
      intro b hb
      obtain ⟨r, _, hr⟩ := List.mem_map.mp hb
      simpa using hr.symm
    rw [List.eq_replicate_of_mem hmem, List.length_map, List.length_range']
  | nz :: rest, st, hsort, hlb, hub, hcur => by
    obtain ⟨hhead, htail⟩ := List.pairwise_cons.mp hsort
    have hnzR : nz.row < R := hub nz (List.mem_cons_self nz rest)
    have hstnz : st.cur ≤ nz.row := hlb nz (List.mem_cons_self nz rest)
    simp only [compress_loop]
    obtain ⟨ih1, ih2⟩ := compress_loop_offs R rest
      { cur := max st.cur nz.row,
        offs := st.offs ++ List.replicate (nz.row - st.cur) st.minors.length,
        minors := st.minors ++ [nz.col],
        vals := st.vals ++ [nz.value] }
      htail
      (by intro x hx
          simp only [Nat.max_eq_right hstnz]
          exact hhead x hx)
      (by intro x hx; exact hub x (List.mem_cons_of_mem nz hx))
      (by simp only [Nat.max_eq_right hstnz]; omega)
    refine ⟨ih1, ?_⟩
    rw [ih2]
    simp only [Nat.max_eq_right hstnz, List.length_append, List.length_cons,
      List.length_nil]
    rw [List.append_assoc]
    congr 1
    have harith : R - st.cur = (R - nz.row) + (nz.row - st.cur) := by omega
    have hstart : st.cur + 1 + 1 * (nz.row - st.cur) = nz.row + 1 := by omega
    rw [harith, ← List.range'_append, hstart, List.map_append]
    congr 1
    · have hmem : ∀ b ∈ (List.range' (st.cur + 1) (nz.row - st.cur)).map
          (fun r => st.minors.length + (nz :: rest).countP (fun x => x.row < r)),
          b = st.minors.length := by
        intro b hb
        obtain ⟨r, hrmem, hr⟩ := List.mem_map.mp hb
        obtain ⟨hr1, hr2⟩ := List.mem_range'_1.mp hrmem
        have hcz : (nz :: rest).countP (fun x => decide (x.row < r)) = 0 := by
          rw [List.countP_eq_zero]
          intro x hx
          rcases List.mem_cons.mp hx with h | h
          · subst h; simp only [decide_eq_true_eq]; omega
          · have hle := hhead x h
            simp only [rowLe] at hle
            simp only [decide_eq_true_eq]
            omega
        rw [hcz] at hr
        omega
      rw [List.eq_replicate_of_mem hmem, List.length_map, List.length_range']
    · refine List.map_congr_left ?_
      intro r hrmem
      obtain ⟨hr1, _⟩ := List.mem_range'_1.mp hrmem
      rw [List.countP_cons]
      have hd : (decide (nz.row < r)) = true := by
        simp only [decide_eq_true_eq]
        omega
      rw [hd]
      simp only [List.length_append, List.length_cons, List.length_nil, if_true]
      omega

/-- Closed form of the compressor on a row-sorted, in-bounds entry list:
    offsets count the entries strictly below each major index, the minor
    and value arrays are the per-entry projections in order. -/
theorem compress_spec (R : ℕ) (s : List Nonzero)
    (hsort : List.Pairwise rowLe s) (hub : ∀ nz ∈ s, nz.row < R) :
    compress R s =
      { cur := R,
        offs := (List.range (R + 1)).map (fun r => s.countP (fun nz => nz.row < r)),
        minors := s.map (fun nz => nz.col),
        vals := s.map (fun nz => nz.value) } := by
  obtain ⟨hcur, hoffs⟩ := compress_loop_offs R s
    { cur := 0, offs := [0], minors := [], vals := [] }
    hsort (fun x _ => Nat.zero_le x.row) hub (Nat.zero_le R)
  obtain ⟨hm, hv⟩ := compress_loop_arrays s
    { cur := 0, offs := [0], minors := [], vals := [] }
  simp only [List.nil_append] at hm hv
  simp only [List.length_nil, Nat.sub_zero, Nat.zero_add] at hoffs
  simp only [compress]
  rw [CompressState.mk.injEq]
  refine ⟨Nat.max_eq_right hcur, ?_, hm, hv⟩
  rw [hoffs, List.range_eq_range', List.range'_succ, List.map_cons]
  have h0 : s.countP (fun nz => nz.row < 0) = 0 :=
    List.countP_eq_zero.mpr (by intro x _; simp)
  rw [h0]
  refine (List.singleton_append ▸ ?_)
  refine congrArg (fun l => (0 : ℕ) :: l) ?_
  refine List.map_congr_left ?_
  intro r _
  omega

/-- A row-sorted list splits, at any row index `r`, into the entries below,
    at, and above `r`. -/
theorem sorted_row_decomp :
    ∀ (s : List Nonzero), List.Pairwise rowLe s → ∀ (r : ℕ),
      ∃ A B C : List Nonzero,
        s = A ++ B ++ C ∧
        (∀ a ∈ A, a.row < r) ∧ (∀ b ∈ B, b.row = r) ∧ (∀ c ∈ C, r < c.row)
  | [], _, r => ⟨[], [], [], rfl, (by intro a ha; cases ha), (by intro b hb; cases hb),
      (by intro c hc; cases hc)⟩
  | nz :: t, hs, r => by
    obtain ⟨hhead, htail⟩ := List.pairwise_cons.mp hs
    obtain ⟨A, B, C, hdec, hA, hB, hC⟩ := sorted_row_decomp t htail r
    rcases Nat.lt_trichotomy nz.row r with hlt | heq | hgt
    · refine ⟨nz :: A, B, C, by simp [hdec], ?_, hB, hC⟩
      intro a ha
      rcases List.mem_cons.mp ha with h | h
      · subst h; exact hlt
      · exact hA a h
    · have hA0 : A = [] := by
        rw [List.eq_nil_iff_forall_not_mem]
        intro a ha
        have hat : a ∈ t := by
          rw [hdec]; exact List.mem_append_left _ (List.mem_append_left _ ha)
        have h1 := hhead a hat
        have h2 := hA a ha
        simp only [rowLe] at h1
        omega
      subst hA0
      refine ⟨[], nz :: B, C, by simp [hdec], (by intro a ha; cases ha), ?_, hC⟩
      intro b hb
      rcases List.mem_cons.mp hb with h | h
      · subst h; exact heq
      · exact hB b h
    · have hA0 : A = [] := by
        rw [List.eq_nil_iff_forall_not_mem]
        intro a ha
        have hat : a ∈ t := by
          rw [hdec]; exact List.mem_append_left _ (List.mem_append_left _ ha)
        have h1 := hhead a hat
        have h2 := hA a ha
        simp only [rowLe] at h1
        omega
      have hB0 : B = [] := by
        rw [List.eq_nil_iff_forall_not_mem]
        intro b hb
        have hbt : b ∈ t := by
          rw [hdec]; exact List.mem_append_left _ (List.mem_append_right _ hb)
        have h1 := hhead b hbt
        have h2 := hB b hb
        simp only [rowLe] at h1
        omega
      subst hA0; subst hB0
      refine ⟨[], [], nz :: C, by simp [hdec], (by intro a ha; cases ha),
        (by intro b hb; cases hb), ?_⟩
      intro c hc
      rcases List.mem_cons.mp hc with h | h
      · subst h; exact hgt
      · exact hC c h

/-- On a row-sorted list the count-based slice of any per-entry projection
    between `countP (row < r)` and `countP (row < r + 1)` is exactly the
    projection of the entries of row `r`. -/
theorem sorted_slice_facts {β : Type} (f : Nonzero → β) (s : List Nonzero)
    (hsort : List.Pairwise rowLe s) (r : ℕ) :
    ((s.map f).drop (s.countP (fun nz => nz.row < r))).take
        (s.countP (fun nz => nz.row < r + 1) - s.countP (fun nz => nz.row < r))
      = (s.filter (fun nz => nz.row = r)).map f := by
  obtain ⟨A, B, C, hdec, hA, hB, hC⟩ := sorted_row_decomp s hsort r
  subst hdec
  have c1 : (A ++ B ++ C).countP (fun nz => nz.row < r) = A.length := by
    rw [List.countP_append, List.countP_append]
    have h1 : A.countP (fun nz => nz.row < r) = A.length :=
      List.countP_eq_length.mpr (by intro a ha; simpa using hA a ha)
    have h2 : B.countP (fun nz => nz.row < r) = 0 :=
      List.countP_eq_zero.mpr
        (by intro b hb; have := hB b hb; simp only [decide_eq_true_eq]; omega)
    have h3 : C.countP (fun nz => nz.row < r) = 0 :=
      List.countP_eq_zero.mpr
        (by intro c hc; have := hC c hc; simp only [decide_eq_true_eq]; omega)
    omega
  have c2 : (A ++ B ++ C).countP (fun nz => nz.row < r + 1) = A.length + B.length := by
    rw [List.countP_append, List.countP_append]
    have h1 : A.countP (fun nz => nz.row < r + 1) = A.length :=
      List.countP_eq_length.mpr
        (by intro a ha; have := hA a ha; simp only [decide_eq_true_eq]; omega)
    have h2 : B.countP (fun nz => nz.row < r + 1) = B.length :=
      List.countP_eq_length.mpr
        (by intro b hb; have := hB b hb; simp only [decide_eq_true_eq]; omega)
    have h3 : C.countP (fun nz => nz.row < r + 1) = 0 :=
      List.countP_eq_zero.mpr
        (by intro c hc; have := hC c hc; simp only [decide_eq_true_eq]; omega)
    omega
  have cf : (A ++ B ++ C).filter (fun nz => nz.row = r) = B := by
    rw [List.filter_append, List.filter_append]
    have h1 : A.filter (fun nz => nz.row = r) = [] :=
      List.filter_eq_nil_iff.mpr
        (by intro a ha; have := hA a ha; simp only [decide_eq_true_eq]; omega)
    have h2 : B.filter (fun nz => nz.row = r) = B :=
      List.filter_eq_self.mpr (by intro b hb; simpa using hB b hb)
    have h3 : C.filter (fun nz => nz.row = r) = [] :=
      List.filter_eq_nil_iff.mpr
        (by intro c hc; have := hC c hc; simp only [decide_eq_true_eq]; omega)
    rw [h1, h2, h3]
    simp
  rw [c1, c2, cf, Nat.add_sub_cancel_left]
  rw [List.map_append, List.map_append, List.append_assoc]
  rw [show A.length = (A.map f).length by simp, List.drop_left]
  rw [show B.length = (B.map f).length by simp, List.take_left]

/-- Within one row of a `keyRowLe`-sorted list the columns are
    non-decreasing. -/
theorem slice_cols_sorted (s : List Nonzero) (hs : s.Sorted keyRowLe) (r : ℕ) :
    ((s.filter (fun nz => nz.row = r)).map (fun nz => nz.col)).Sorted (· ≤ ·) := by
  rw [List.Sorted, List.pairwise_map]
  have hp : List.Pairwise keyRowLe (s.filter (fun nz => nz.row = r)) :=
    List.Pairwise.sublist (List.filter_sublist s) hs
  refine hp.imp_of_mem ?_
  intro a b ha hb hab
  have har : a.row = r := by simpa using (List.mem_filter.mp ha).2
  have hbr : b.row = r := by simpa using (List.mem_filter.mp hb).2
  rcases hab with h | ⟨_, h⟩
  · omega
  · exact h

/-- Within one column of a `keyColLe`-sorted list the rows are
    non-decreasing. -/
theorem slice_rows_sorted (s : List Nonzero) (hs : s.Sorted keyColLe) (c : ℕ) :
    ((s.filter (fun nz => nz.col = c)).map (fun nz => nz.row)).Sorted (· ≤ ·) := by
  rw [List.Sorted, List.pairwise_map]
  have hp : List.Pairwise keyColLe (s.filter (fun nz => nz.col = c)) :=
    List.Pairwise.sublist (List.filter_sublist s) hs
  refine hp.imp_of_mem ?_
  intro a b ha hb hab
  have har : a.col = c := by simpa using (List.mem_filter.mp ha).2
  have hbr : b.col = c := by simpa using (List.mem_filter.mp hb).2
  rcases hab with h | ⟨_, h⟩
  · omega
  · exact h

theorem flatMap_congr_mem {α β : Type} {l : List α} {f g : α → List β}
    (h : ∀ a ∈ l, f a = g a) : l.flatMap f = l.flatMap g := by
  induction l with
  | nil => rfl
  | cons a t ih =>
    rw [List.flatMap_cons, List.flatMap_cons, h a (List.mem_cons_self a t),
      ih (fun x hx => h x (List.mem_cons_of_mem a hx))]

/-- Reassembling a row-sorted list from its per-row filters, in row order. -/
theorem flatMap_filter_rows {β : Type} (g : ℕ → Nonzero → β) :
    ∀ (n a : ℕ) (s : List Nonzero), List.Pairwise rowLe s →
      (∀ nz ∈ s, a ≤ nz.row ∧ nz.row < a + n) →
      (List.range' a n).flatMap
          (fun r => (s.filter (fun nz => nz.row = r)).map (g r))
        = s.map (fun nz => g nz.row nz)
  | 0, a, s, _, hbd => by
    have hs : s = [] := by
      rw [List.eq_nil_iff_forall_not_mem]
      intro x hx
      have := hbd x hx
      omega
    subst hs
    rfl
  | n + 1, a, s, hsort, hbd => by
    obtain ⟨A, B, C, hdec, hA, hB, hC⟩ := sorted_row_decomp s hsort a
    have hA0 : A = [] := by
      rw [List.eq_nil_iff_forall_not_mem]
      intro x hx
      have hx2 : x ∈ s := by
        rw [hdec]; exact List.mem_append_left _ (List.mem_append_left _ hx)
      have h1 := hbd x hx2
      have h2 := hA x hx
      omega
    rw [hA0, List.nil_append] at hdec
    subst hdec
    rw [List.range'_succ, List.flatMap_cons]
    have hfB : ((B ++ C).filter (fun nz => nz.row = a)) = B := by
      rw [List.filter_append]
      have h1 : B.filter (fun nz => nz.row = a) = B :=
        List.filter_eq_self.mpr (by intro b hb; simpa using hB b hb)
      have h2 : C.filter (fun nz => nz.row = a) = [] :=
        List.filter_eq_nil_iff.mpr
          (by intro c hc; have := hC c hc; simp only [decide_eq_true_eq]; omega)
      rw [h1, h2, List.append_nil]
    rw [hfB]
    have htailC : (List.range' (a + 1) n).flatMap
        (fun r => ((B ++ C).filter (fun nz => nz.row = r)).map (g r))
        = (List.range' (a + 1) n).flatMap
            (fun r => (C.filter (fun nz => nz.row = r)).map (g r)) := by
      refine flatMap_congr_mem ?_
      intro r hr
      obtain ⟨hr1, _⟩ := List.mem_range'_1.mp hr
      rw [List.filter_append]
      have h1 : B.filter (fun nz => nz.row = r) = [] :=
        List.filter_eq_nil_iff.mpr
          (by intro b hb; have := hB b hb; simp only [decide_eq_true_eq]; omega)
      rw [h1, List.nil_append]
    rw [htailC]
    have hCsorted : List.Pairwise rowLe C :=
      List.Pairwise.sublist (List.sublist_append_right B C) hsort
    have hCbd : ∀ nz ∈ C, a + 1 ≤ nz.row ∧ nz.row < (a + 1) + n := by
      intro x hx
      have h1 := hC x hx
      have h2 := hbd x (List.mem_append_right B hx)
      omega
    rw [flatMap_filter_rows g n (a + 1) C hCsorted hCbd]
    have hBmap : B.map (g a) = B.map (fun nz => g nz.row nz) :=
      List.map_congr_left (by intro b hb; rw [hB b hb])
    rw [hBmap, ← List.map_append]

/-- Index lookup into the count-based offsets array. -/
theorem countOffs_getD (R : ℕ) (s : List Nonzero) {r : ℕ} (hr : r ≤ R) :
    ((List.range (R + 1)).map (fun i => s.countP (fun nz => nz.row < i))).getD r 0
      = s.countP (fun nz => nz.row < r) := by
  have hlt : r < ((List.range (R + 1)).map
      (fun i => s.countP (fun nz => nz.row < i))).length := by
    simp
    omega
  rw [List.getD_eq_getElem _ _ hlt, List.getElem_map, List.getElem_range]

/-- Walking the compressed arrays row by row recovers every entry of the
    (row-sorted, in-bounds) input, in order. -/
theorem compress_triples {β : Type} (g : ℕ → ℕ × ℚ → β) (R : ℕ) (t : List Nonzero)
    (hsort : List.Pairwise rowLe t) (hub : ∀ nz ∈ t, nz.row < R) :
    (List.range R).flatMap (fun r =>
        ((((compress R t).minors.zip (compress R t).vals).drop
              ((compress R t).offs.getD r 0)).take
            ((compress R t).offs.getD (r + 1) 0 - (compress R t).offs.getD r 0)).map (g r))
      = t.map (fun nz => g nz.row (nz.col, nz.value)) := by
  rw [compress_spec R t hsort hub]
  simp only [List.zip_map']
  have hstep : ∀ r ∈ List.range R,
      (((t.map (fun nz => (nz.col, nz.value))).drop
            (((List.range (R + 1)).map
              (fun i => t.countP (fun nz => nz.row < i))).getD r 0)).take
          (((List.range (R + 1)).map
              (fun i => t.countP (fun nz => nz.row < i))).getD (r + 1) 0
            - ((List.range (R + 1)).map
                (fun i => t.countP (fun nz => nz.row < i))).getD r 0)).map (g r)
        = ((t.filter (fun nz => nz.row = r)).map (fun nz => (nz.col, nz.value))).map (g r) := by
    intro r hr
    have hrR : r < R := List.mem_range.mp hr
    rw [countOffs_getD R t (Nat.le_of_lt hrR), countOffs_getD R t (by omega)]
    rw [sorted_slice_facts (fun nz => (nz.col, nz.value)) t hsort r]
  rw [flatMap_congr_mem hstep]
  have hinner : ∀ r ∈ List.range R,
      ((t.filter (fun nz => nz.row = r)).map (fun nz => (nz.col, nz.value))).map (g r)
        = (t.filter (fun nz => nz.row = r)).map (fun nz => g r (nz.col, nz.value)) := by
    intro r _
    rw [List.map_map]
    rfl
  rw [flatMap_congr_mem hinner]
  rw [List.range_eq_range']
  exact flatMap_filter_rows (fun r nz => g r (nz.col, nz.value)) R 0 t hsort
    (by intro x hx; exact ⟨Nat.zero_le _, by simpa using hub x hx⟩)

/-- A CSR matrix built from a sorted, row-bounded entry list represents
    exactly those entries, in order. -/
theorem csr_triples_eq (hdr : Header) (s : List Nonzero)
    (hs : s.Sorted keyRowLe) (hub : ∀ nz ∈ s, nz.row < hdr.num_rows) :
    csr_triples (csr_of_sorted hdr s) = s.map (fun nz => (nz.row, nz.col, nz.value)) := by
  simp only [csr_triples, csr_of_sorted]
  exact compress_triples (fun r cv => (r, cv.1, cv.2)) hdr.num_rows s
    (sorted_keyRowLe_rows hs) hub

/-- A CSC matrix built from a sorted, column-bounded entry list represents
    exactly those entries, in column-major order. -/
theorem csc_triples_eq (hdr : Header) (s : List Nonzero)
    (hs : s.Sorted keyColLe) (hub : ∀ nz ∈ s, nz.col < hdr.num_cols) :
    csc_triples (csc_of_sorted hdr s) = s.map (fun nz => (nz.row, nz.col, nz.value)) := by
  simp only [csc_triples, csc_of_sorted]
  have h1 := compress_triples (fun c rv => (rv.1, c, rv.2)) hdr.num_cols
    (s.map Nonzero.transpose) (sorted_keyColLe_transpose hs)
    (by intro x hx
        obtain ⟨y, hy, hxy⟩ := List.mem_map.mp hx
        subst hxy
        exact hub y hy)
  rw [h1, List.map_map]
  rfl

/-- The structural facts about the offsets array of the compressor. -/
theorem compress_offs_facts (R : ℕ) (s : List Nonzero)
    (hsort : List.Pairwise rowLe s) (hub : ∀ nz ∈ s, nz.row < R) :
    (compress R s).offs.length = R + 1 ∧
    (compress R s).offs.Sorted (· ≤ ·) ∧
    (compress R s).offs.getD 0 0 = 0 ∧
    (compress R s).offs.getD R 0 = s.length := by
  rw [compress_spec R s hsort hub]
  refine ⟨by simp, ?_, ?_, ?_⟩
  · show List.Pairwise (· ≤ ·)
      ((List.range (R + 1)).map (fun r => s.countP (fun nz => nz.row < r)))
    rw [List.pairwise_map]
    refine (List.pairwise_lt_range (R + 1)).imp ?_
    intro a b hab
    refine List.countP_mono_left ?_
    intro x _ hx
    simp only [decide_eq_true_eq] at hx ⊢
    omega
  · show ((List.range (R + 1)).map (fun r => s.countP (fun nz => nz.row < r))).getD 0 0 = 0
    rw [countOffs_getD R s (Nat.zero_le R)]
    exact List.countP_eq_zero.mpr (by intro x _; simp)
  · show ((List.range (R + 1)).map (fun r => s.countP (fun nz => nz.row < r))).getD R 0
        = s.length
    rw [countOffs_getD R s (Nat.le_refl R)]
    exact List.countP_eq_length.mpr (by intro x hx; simpa using hub x hx)

/-- The per-major slice of the compressed arrays, as a permutation of the
    corresponding filter of any permutation of the sorted input. -/
theorem compress_slice_eq (R : ℕ) (s : List Nonzero)
    (hsort : List.Pairwise rowLe s) (hub : ∀ nz ∈ s, nz.row < R) (r : ℕ) (hr : r < R) :
    major_slice (compress R s).offs (compress R s).minors r
      = (s.filter (fun nz => nz.row = r)).map (fun nz => nz.col) := by
  rw [compress_spec R s hsort hub]
  show (((s.map (fun nz => nz.col)).drop
      (((List.range (R + 1)).map (fun i => s.countP (fun nz => nz.row < i))).getD r 0)).take
      (((List.range (R + 1)).map (fun i => s.countP (fun nz => nz.row < i))).getD (r + 1) 0
        - ((List.range (R + 1)).map (fun i => s.countP (fun nz => nz.row < i))).getD r 0))
    = (s.filter (fun nz => nz.row = r)).map (fun nz => nz.col)
  rw [countOffs_getD R s (Nat.le_of_lt hr), countOffs_getD R s (by omega)]
  exact sorted_slice_facts (fun nz => nz.col) s hsort r

/-- A permutation onto a two-element list is one of its two arrangements. -/
theorem perm_pair_cases {α : Type} {x y : α} {s : List α} (h : List.Perm s [x, y]) :
    s = [x, y] ∨ s = [y, x] := by
  rcases s with _ | ⟨a, _ | ⟨b, _ | ⟨c, t⟩⟩⟩
  · exact absurd h.length_eq (by simp)
  · exact absurd h.length_eq (by simp)
  · have ha : a ∈ [x, y] := h.mem_iff.mp (List.mem_cons_self a [b])
    rcases List.mem_cons.mp ha with rfl | ha2
    · have h2 : List.Perm [b] [y] := h.cons_inv
      have hb : b = y := by simpa using List.perm_singleton.mp h2
      subst hb; exact Or.inl rfl
    · have ha3 : a = y := List.mem_singleton.mp ha2
      subst ha3
      have h2 : List.Perm [a, b] [a, x] := h.trans (List.Perm.swap a x [])
      have hb : b = x := by simpa using List.perm_singleton.mp h2.cons_inv
      subst hb; exact Or.inr rfl
  · exact absurd h.length_eq (by simp)

/-- A sorted permutation of a strictly ordered pair is unique. -/
theorem sorted_two_unique {r : Nonzero → Nonzero → Prop} {e1 e2 : Nonzero}
    {s : List Nonzero} (hperm : List.Perm [e1, e2] s) (hsort : List.Pairwise r s)
    (hns : ¬ r e2 e1) : s = [e1, e2] := by
  rcases perm_pair_cases hperm.symm with h | h
  · exact h
  · exfalso
    subst h
    exact hns ((List.pairwise_cons.mp hsort).1 e1 (List.mem_cons_self e1 []))

theorem parse_value_fmt_ok_iff (s : String) :
    (∃ v, parse_value_fmt s = .ok v) ↔ (s = "real" ∨ s = "integer" ∨ s = "pattern") := by
  unfold parse_value_fmt
  split_ifs with h1 h2 h3
  · simp [h1]
  · simp [h2]
  · simp [h3]
  · constructor
    · rintro ⟨v, hv⟩
      exact hv.elim
    · rintro (h | h | h) <;> [exact absurd h h1; exact absurd h h2; exact absurd h h3]

theorem parse_symmetry_ok_iff (s : String) :
    (∃ v, parse_symmetry s = .ok v) ↔ (s = "general" ∨ s = "symmetric") := by
  unfold parse_symmetry
  split_ifs with h1 h2
  · simp [h1]
  · simp [h2]
  · constructor
    · rintro ⟨v, hv⟩
      exact hv.elim
    · rintro (h | h) <;> [exact absurd h h1; exact absurd h h2]

/-- If the first non-whitespace character of a token can not begin a
    numeral, both numeric parsers silently yield zero instead of failing. -/
theorem parse_no_number {s : String} (h : noNumericPrefix s) :
    parse_int s = 0 ∧ parse_num s = 0 := by
  simp only [noNumericPrefix] at h
  obtain ⟨h1, h2, h3, h4⟩ := h
  constructor
  · simp only [parse_int]
    cases hcs : s.toList.dropWhile isStreamSpace with
    | nil => rfl
    | cons c t =>
      rw [hcs] at h1 h4
      simp only [List.headD_cons] at h1 h4
      simp only [List.headD_cons]
      rw [if_neg h1]
      simp [List.takeWhile_cons, h4, digitsVal]
  · simp only [parse_num]
    cases hcs : s.toList.dropWhile isStreamSpace with
    | nil => rfl
    | cons c t =>
      rw [hcs] at h1 h2 h3 h4
      simp only [List.headD_cons] at h1 h2 h3 h4
      simp only [List.headD_cons]
      rw [if_neg (show ¬(c = '-' ∨ c = '+') by rw [not_or]; exact ⟨h2, h1⟩)]
      simp [List.takeWhile_cons, List.dropWhile_cons, h4, h3]

/-- `skip_comments` either exhausts the stream over comment lines or stops
    at the first line actually present that does not start with `%`. -/
theorem skip_comments_spec :
    ∀ (ls : List String) (d : String) (r : List String),
      skip_comments ls = (d, r) →
      ((∀ c ∈ ls, firstIsPercent c = true) ∧ d = "" ∧ r = []) ∨
      (∃ cs, ls = cs ++ d :: r ∧ (∀ c ∈ cs, firstIsPercent c = true) ∧
        firstIsPercent d = false)
  | [], d, r, h => by
    injection h with h1 h2
    exact Or.inl ⟨(by intro c hc; cases hc), h1.symm, h2.symm⟩
  | l :: ls, d, r, h => by
    by_cases hp : firstIsPercent l = true
    · rw [skip_comments, if_pos hp] at h
      rcases skip_comments_spec ls d r h with ⟨hall, h1, h2⟩ | ⟨cs, h1, h2, h3⟩
      · refine Or.inl ⟨?_, h1, h2⟩
        intro c hc
        rcases List.mem_cons.mp hc with hc | hc
        · subst hc; exact hp
        · exact hall c hc
      · refine Or.inr ⟨l :: cs, by simp [h1], ?_, h3⟩
        intro c hc
        rcases List.mem_cons.mp hc with hc | hc
        · subst hc; exact hp
        · exact h2 c hc
    · rw [skip_comments, if_neg hp] at h
      injection h with h1 h2
      subst h1; subst h2
      exact Or.inr ⟨[], rfl, (by intro c hc; cases hc),
        Bool.not_eq_true _ ▸ (by simpa using hp)⟩

/-- Skipping runs through exactly the leading `%` lines. -/
theorem skip_comments_append (cs : List String) (d : String) (rest : List String)
    (hcs : ∀ c ∈ cs, firstIsPercent c = true) (hd : firstIsPercent d = false) :
    skip_comments (cs ++ d :: rest) = (d, rest) := by
  induction cs with
  | nil =>
    rw [List.nil_append, skip_comments, if_neg]
    simp [hd]
  | cons c cs ih =>
    rw [List.cons_append, skip_comments, if_pos (hcs c (List.mem_cons_self c cs))]
    exact ih (fun x hx => hcs x (List.mem_cons_of_mem c hx))

/-- `read_header` with the two reads and the comment skip made explicit. -/
theorem read_header_eq (lines : List String) :
    read_header lines =
      (do
        let (value_fmt, symmetry) ← read_format_line (getLine lines).1
        let (num_rows, num_cols, num_nonzeros) ←
          read_dim_line (skip_comments (getLine lines).2).1
        return ({ symmetry := symmetry, value_type := value_fmt, num_rows := num_rows,
                  num_cols := num_cols, num_nonzeros := num_nonzeros },
                (skip_comments (getLine lines).2).2)) := by
  cases lines <;> rfl

/-- A successful header read consumed actual lines of the file, so the same
    header comes back whatever follows those lines. -/
theorem read_header_append {lines : List String} {hdr : Header} {rest : List String}
    (h : read_header lines = .ok (hdr, rest)) :
    ∃ pre, lines = pre ++ rest ∧ ∀ ext, read_header (pre ++ ext) = .ok (hdr, ext) := by
  cases lines with
  | nil =>
    rw [read_header_eq] at h
    exact Except.noConfusion h
  | cons fl ls =>
    rw [read_header_eq] at h
    simp only [getLine] at h
    cases hf : read_format_line fl with
    | error e => rw [hf] at h; exact Except.noConfusion h
    | ok vs =>
      obtain ⟨vf, sym⟩ := vs
      rw [hf] at h
      cases hsc : skip_comments ls with
      | mk d r2 =>
        rw [hsc] at h
        cases hdl : read_dim_line d with
        | error e => rw [hdl] at h; exact Except.noConfusion h
        | ok dims =>
          obtain ⟨nr, nc, nn⟩ := dims
          rw [hdl] at h
          injection h with h'
          injection h' with h1 h2
          subst h1; subst h2
          rcases skip_comments_spec ls d r2 hsc with ⟨hall, hd0, hr0⟩ | ⟨cs, hls, hcs, hd⟩
          · subst hd0
            rw [show read_dim_line "" = Except.error "Bad Header: missing matrix size"
              from rfl] at hdl
            exact Except.noConfusion hdl
          · refine ⟨fl :: (cs ++ [d]), by simp [hls], ?_⟩
            intro ext
            rw [read_header_eq]
            simp only [List.cons_append, getLine]
            rw [List.append_assoc, List.singleton_append]
            rw [skip_comments_append cs d ext hcs hd, hf, hdl]
            rfl

theorem parse_data_line_empty (vf : ValueFormat) (nr nc : ℕ) :
    ∃ e, parse_data_line vf nr nc "" = .error e := by
  cases vf <;> exact ⟨_, rfl⟩

/-- A successful coordinate read consumed exactly `n` actual lines, so the
    same entries come back whatever follows those lines. -/
theorem read_nonzeros_append (hdr : Header) :
    ∀ (n : ℕ) (lines : List String) (nzs : List Nonzero) (rest : List String),
      read_nonzeros hdr n lines = .ok (nzs, rest) →
      ∃ pre, lines = pre ++ rest ∧ pre.length = n ∧
        ∀ ext, read_nonzeros hdr n (pre ++ ext) = .ok (nzs, ext)
  | 0, lines, nzs, rest, h => by
    unfold read_nonzeros at h
    injection h with h'
    injection h' with h1 h2
    subst h1; subst h2
    exact ⟨[], rfl, rfl, fun ext => rfl⟩
  | n + 1, lines, nzs, rest, h => by
    rw [read_nonzeros_succ] at h
    cases lines with
    | nil =>
      obtain ⟨e, he⟩ := parse_data_line_empty hdr.value_type hdr.num_rows hdr.num_cols
      cases hp : parse_data_line hdr.value_type hdr.num_rows hdr.num_cols
          (getLine ([] : List String)).1 with
      | error e2 => rw [hp] at h; exact Except.noConfusion h
      | ok nz => exact absurd (he.symm.trans hp) (by simp)
    | cons l ls =>
      simp only [getLine] at h
      cases hp : parse_data_line hdr.value_type hdr.num_rows hdr.num_cols l with
      | error e => rw [hp] at h; exact Except.noConfusion h
      | ok nz =>
        rw [hp] at h
        cases hrec : read_nonzeros hdr n ls with
        | error e => rw [hrec] at h; exact Except.noConfusion h
        | ok v =>
          obtain ⟨nzs2, rest2⟩ := v
          rw [hrec] at h
          injection h with h'
          injection h' with h1 h2
          subst h1; subst h2
          obtain ⟨pre, hls, hlen, hext⟩ := read_nonzeros_append hdr n ls nzs2 rest2 hrec
          refine ⟨l :: pre, by simp [hls], by simp [hlen], ?_⟩
          intro ext
          rw [List.cons_append, read_nonzeros_succ]
          simp only [getLine]
          rw [hp, hext ext]
          rfl

/-- Assembling a successful decode from its two successful stages. -/
theorem decode_coo_ok_of {L : List String} {hdr : Header} {r1 : List String}
    {nzs : List Nonzero} {r2 : List String}
    (hh : read_header L = .ok (hdr, r1))
    (hn : read_nonzeros hdr hdr.num_nonzeros r1 = .ok (nzs, r2)) :
    decode_coo L = .ok (hdr, nzs, r2) := by
  simp only [decode_coo, hh, hn]

/-- A successful decode consumed the header lines plus exactly
    `num_nonzeros` data lines; everything after is never read. -/
theorem decode_coo_append {lines : List String} {hdr : Header} {nzs : List Nonzero}
    {rest : List String} (h : decode_coo lines = .ok (hdr, nzs, rest)) :
    ∃ hpre dpre, lines = hpre ++ dpre ++ rest ∧ dpre.length = hdr.num_nonzeros ∧
      (∀ ext, read_header (hpre ++ ext) = .ok (hdr, ext)) ∧
      (∀ ext, decode_coo (hpre ++ dpre ++ ext) = .ok (hdr, nzs, ext)) := by
  unfold decode_coo at h
  split at h
  · exact Except.noConfusion h
  · rename_i hdr1 r1 hh
    split at h
    · exact Except.noConfusion h
    · rename_i nzs1 r2 hn
      injection h with h'
      injection h' with h1 h2
      injection h2 with h3 h4
      subst h1; subst h3; subst h4
      obtain ⟨hpre, hlines, hexthdr⟩ := read_header_append hh
      obtain ⟨dpre, hr1, hdlen, hextnz⟩ := read_nonzeros_append hdr1 _ r1 nzs1 r2 hn
      refine ⟨hpre, dpre, by rw [hlines, hr1, List.append_assoc], hdlen, hexthdr, ?_⟩
      intro ext
      rw [List.append_assoc]
      exact decode_coo_ok_of (hexthdr (dpre ++ ext)) (hextnz ext)

/-- Exact characterization of the format lines the header parser accepts. -/
theorem read_format_line_ok_iff (line : String) :
    (∃ p, read_format_line line = .ok p) ↔
      ((tokens line).length = 5 ∧
        (tokens line).getD 0 "" = "%%MatrixMarket" ∧
        (tokens line).getD 1 "" = "matrix" ∧
        (tokens line).getD 2 "" = "coordinate" ∧
        ((tokens line).getD 3 "" = "real" ∨ (tokens line).getD 3 "" = "integer" ∨
          (tokens line).getD 3 "" = "pattern") ∧
        ((tokens line).getD 4 "" = "general" ∨ (tokens line).getD 4 "" = "symmetric")) := by
  simp only [read_format_line]
  split_ifs with h1 h2 h3 h4
  · constructor
    · rintro ⟨p, hp⟩; exact hp.elim
    · rintro ⟨hlen, _⟩; exact absurd hlen h1
  · constructor
    · rintro ⟨p, hp⟩; exact hp.elim
    · rintro ⟨_, h0, _⟩; exact absurd h0 h2
  · constructor
    · rintro ⟨p, hp⟩; exact hp.elim
    · rintro ⟨_, _, hm, _⟩; exact absurd hm h3
  · constructor
    · rintro ⟨p, hp⟩; exact hp.elim
    · rintro ⟨_, _, _, hc, _⟩; exact absurd hc h4
  · constructor
    · rintro ⟨p, hp⟩
      cases hv : parse_value_fmt ((tokens line).getD 3 "") with
      | error e => rw [hv] at hp; exact Except.noConfusion hp
      | ok v =>
        rw [hv] at hp
        cases hs2 : parse_symmetry ((tokens line).getD 4 "") with
        | error e => rw [hs2] at hp; exact Except.noConfusion hp
        | ok s2 =>
          refine ⟨not_not.mp h1, not_not.mp h2, not_not.mp h3, not_not.mp h4,
            (parse_value_fmt_ok_iff _).mp ⟨v, hv⟩, (parse_symmetry_ok_iff _).mp ⟨s2, hs2⟩⟩
    · rintro ⟨_, _, _, _, hv, hs⟩
      obtain ⟨v, hv2⟩ := (parse_value_fmt_ok_iff _).mpr hv
      obtain ⟨s2, hs2⟩ := (parse_symmetry_ok_iff _).mpr hs
      refine ⟨(v, s2), ?_⟩
      rw [hv2, hs2]
      rfl

/-- A failed format line is fatal: the whole decode returns that error. -/
theorem read_format_line_fatal {lines : List String} {e : String}
    (h : read_format_line (getLine lines).1 = .error e) :
    decode_coo lines = .error e := by
  unfold decode_coo
  rw [read_header_eq, h]
  rfl

/-- The concrete general-symmetry file of the spec's first scenario. -/
def exfile_general : List String :=
  ["%%MatrixMarket matrix coordinate real general", "3 3 2", "1 1 5.0", "2 3 7.0"]

def exhdr_general : Header :=
  { symmetry := SymmetryType.GENERAL, value_type := ValueFormat.REAL,
    num_rows := 3, num_cols := 3, num_nonzeros := 2 }

def exnzs_general : List Nonzero :=
  [{ row := 0, col := 0, value := 5 }, { row := 1, col := 2, value := 7 }]

/-- What the code actually produces for `exfile_general`. -/
def excsr_general : CSRMatrix :=
  { num_rows := 3, num_cols := 3, num_nonzeros := 2,
    row_offsets := [0, 1, 2, 2], col_indices := [0, 2], values := [5, 7] }

/-- The concrete symmetric file of the spec's second scenario. -/
def exfile_symmetric : List String :=
  ["%%MatrixMarket matrix coordinate real symmetric", "3 3 1", "1 2 4.0"]

def exhdr_symmetric : Header :=
  { symmetry := SymmetryType.SYMMETRIC, value_type := ValueFormat.REAL,
    num_rows := 3, num_cols := 3, num_nonzeros := 1 }

def exnzs_symmetric : List Nonzero :=
  [{ row := 0, col := 1, value := 4 }, { row := 1, col := 0, value := 4 }]

def excsr_symmetric : CSRMatrix :=
  { num_rows := 3, num_cols := 3, num_nonzeros := 2,
    row_offsets := [0, 1, 2, 2], col_indices := [1, 0], values := [4, 4] }

/-- A general file listing the same coordinate twice with different
    values. -/
def exfile_dup : List String :=
  ["%%MatrixMarket matrix coordinate real general", "2 2 2", "1 1 5.0", "1 1 7.0"]

def exhdr_dup : Header :=
  { symmetry := SymmetryType.GENERAL, value_type := ValueFormat.REAL,
    num_rows := 2, num_cols := 2, num_nonzeros := 2 }

def exnzs_dup : List Nonzero :=
  [{ row := 0, col := 0, value := 5 }, { row := 0, col := 0, value := 7 }]

def excsr_dup_arrival : CSRMatrix :=
  { num_rows := 2, num_cols := 2, num_nonzeros := 2,
    row_offsets := [0, 2, 2], col_indices := [0, 0], values := [5, 7] }

def excsr_dup_swapped : CSRMatrix :=
  { num_rows := 2, num_cols := 2, num_nonzeros := 2,
    row_offsets := [0, 2, 2], col_indices := [0, 0], values := [7, 5] }

/-- A symmetric file on a non-square matrix whose mirrored entry leaves the
    row range. -/
def exfile_rect_symmetric : List String :=
  ["%%MatrixMarket matrix coordinate real symmetric", "2 3 1", "1 3 4.0"]

def excsr_rect : CSRMatrix :=
  { num_rows := 2, num_cols := 3, num_nonzeros := 2,
    row_offsets := [0, 1, 1], col_indices := [2, 0], values := [4, 4] }

def excsc_rect : CSCMatrix :=
  { num_rows := 2, num_cols := 3, num_nonzeros := 2,
    col_offsets := [0, 1, 1, 2], row_indices := [2, 0], values := [4, 4] }

/-- Any output of the executable reader is an admissible decode result. -/
theorem ReadCSR_of_impl {lines : List String} {M : CSRMatrix}
    (h : read_csr lines = Except.ok M) : ReadCSR lines (Except.ok M) :=
  h ▸ read_csr_mem lines

theorem ReadCSC_of_impl {lines : List String} {M : CSCMatrix}
    (h : read_csc lines = Except.ok M) : ReadCSC lines (Except.ok M) :=
  h ▸ read_csc_mem lines

/-- When the two decoded entries have strictly ordered keys every
    admissible CSR result is the same matrix. -/
theorem ReadCSR_unique_two {lines : List String} {hdr : Header} {rest : List String}
    {e1 e2 : Nonzero}
    (hdec : decode_coo lines = Except.ok (hdr, [e1, e2], rest))
    (hns : ¬ keyRowLe e2 e1) :
    ∀ res, ReadCSR lines res → res = Except.ok (csr_of_sorted hdr [e1, e2]) := by
  intro res hres
  rw [ReadCSR_ok_iff hdec] at hres
  obtain ⟨s, hperm, hsort, heq⟩ := hres
  rw [show s = [e1, e2] from sorted_two_unique hperm hsort hns] at heq
  exact heq

example : decode_coo exfile_general = Except.ok (exhdr_general, exnzs_general, []) := rfl
example : read_csr exfile_general = Except.ok excsr_general := rfl
example : decode_coo exfile_symmetric = Except.ok (exhdr_symmetric, exnzs_symmetric, []) := rfl
example : read_csr exfile_symmetric = Except.ok excsr_symmetric := rfl
example : decode_coo exfile_dup = Except.ok (exhdr_dup, exnzs_dup, []) := rfl
example : read_csr exfile_dup = Except.ok excsr_dup_arrival := rfl
example : read_csr exfile_rect_symmetric = Except.ok excsr_rect := rfl
example : read_csc exfile_rect_symmetric = Except.ok excsc_rect := rfl
example : csr_triples excsr_rect = [(0, 2, 4)] := rfl
example : csc_triples excsc_rect = [(2, 0, 4), (0, 2, 4)] := rfl

/-- C3, counterexample: on the spec's concrete general file the decode can
    not return `major_offsets = [0, 1, 1, 2]` — the single admissible result
    has `row_offsets = [0, 1, 2, 2]` (the entry `2 3 7.0` lands in 0-indexed
    row 1, not row 2). -/
theorem claim_c3_counterexample :
    ¬ ∃ m : CSRMatrix, ReadCSR exfile_general (Except.ok m) ∧
      m.row_offsets = [0, 1, 1, 2] := by
  rintro ⟨m, hm, hoffs⟩
  have huniq := ReadCSR_unique_two
    (show decode_coo exfile_general = Except.ok
      (exhdr_general, [{ row := 0, col := 0, value := 5 },
        { row := 1, col := 2, value := 7 }], []) from rfl)
    (by decide) (Except.ok m) hm
  injection huniq with h'
  rw [h'] at hoffs
  exact absurd hoffs (by decide)

/-- C3 (amended): the concrete file decodes as CSR — for every admissible
    behaviour of the unstable sort — to `num_rows = 3`, `num_cols = 3`,
    `num_nonzeros = 2`, `major_offsets = [0, 1, 2, 2]`,
    `minor_indices = [0, 2]`, `values = [5.0, 7.0]`. -/
theorem claim_c3_concrete_decode :
    ReadCSR exfile_general (Except.ok excsr_general) ∧
    (∀ res, ReadCSR exfile_general res → res = Except.ok excsr_general) ∧
    excsr_general =
      { num_rows := 3, num_cols := 3, num_nonzeros := 2,
        row_offsets := [0, 1, 2, 2], col_indices := [0, 2], values := [5, 7] } := by
  refine ⟨ReadCSR_of_impl rfl, ?_, rfl⟩
  intro res hres
  have h := ReadCSR_unique_two
    (show decode_coo exfile_general = Except.ok
      (exhdr_general, [{ row := 0, col := 0, value := 5 },
        { row := 1, col := 2, value := 7 }], []) from rfl)
    (by decide) res hres
  rw [h]
  rfl

/-- C4, counterexample: the comparator is fed to `std::sort`, which does not
    guarantee stability, so on a file listing `(1,1,5.0)` before `(1,1,7.0)`
    the decode may legitimately return the two equal-key entries with values
    in the order `[7, 5]` — the claim's "entries with equal keys retain
    their relative input order" does not hold of the code. -/
theorem claim_c4_counterexample :
    ReadCSR exfile_dup (Except.ok excsr_dup_swapped) ∧
    excsr_dup_swapped.values ≠ [5, 7] := by
  constructor
  · rw [ReadCSR_ok_iff (show decode_coo exfile_dup = Except.ok
      (exhdr_dup, [{ row := 0, col := 0, value := 5 },
        { row := 0, col := 0, value := 7 }], []) from rfl)]
    exact ⟨[{ row := 0, col := 0, value := 7 }, { row := 0, col := 0, value := 5 }],
      by decide, by decide, rfl⟩
  · decide

/-- C4 (amended): every admissible result is the compression of some
    `(row, col)`-sorted permutation of the arrival entries: the represented
    triples are a key-sorted permutation of the symmetry-expanded input, and
    every coordinate keeps its multiplicity (duplicates are neither merged
    nor summed) — but the relative order of equal-key entries is
    unspecified. -/
theorem claim_c4_sorted_multiset
    (lines : List String) (hdr : Header) (nzs : List Nonzero) (rest : List String)
    (m : CSRMatrix)
    (hdec : decode_coo lines = Except.ok (hdr, nzs, rest))
    (hm : ReadCSR lines (Except.ok m))
    (hub : ∀ nz ∈ nzs, nz.row < hdr.num_rows) :
    List.Perm (csr_triples m) (nzs.map (fun nz => (nz.row, nz.col, nz.value))) ∧
    (csr_triples m).Sorted (fun t u => t.1 < u.1 ∨ (t.1 = u.1 ∧ t.2.1 ≤ u.2.1)) ∧
    ∀ rc : ℕ × ℕ,
      (csr_triples m).countP (fun t => t.1 = rc.1 ∧ t.2.1 = rc.2)
        = nzs.countP (fun nz => nz.row = rc.1 ∧ nz.col = rc.2) := by
  rw [ReadCSR_ok_iff hdec] at hm
  obtain ⟨s, hperm, hsort, heq⟩ := hm
  injection heq with heq'
  subst heq'
  have hubs : ∀ nz ∈ s, nz.row < hdr.num_rows :=
    fun nz hnz => hub nz (hperm.mem_iff.mpr hnz)
  rw [csr_triples_eq hdr s hsort hubs]
  refine ⟨(hperm.map _).symm, ?_, ?_⟩
  · rw [List.Sorted, List.pairwise_map]
    refine hsort.imp ?_
    intro a b hab
    exact hab
  · intro rc
    rw [List.countP_map]
    exact (hperm.countP_eq _).symm

theorem claim_c4_sorted_multiset_witness :
    decode_coo exfile_dup = Except.ok (exhdr_dup, exnzs_dup, []) ∧
    (∀ nz ∈ exnzs_dup, nz.row < exhdr_dup.num_rows) ∧
    List.Perm (csr_triples excsr_dup_arrival)
      (exnzs_dup.map (fun nz => (nz.row, nz.col, nz.value))) := by
  refine ⟨rfl, by decide, ?_⟩
  exact (claim_c4_sorted_multiset exfile_dup exhdr_dup exnzs_dup [] excsr_dup_arrival rfl
    (ReadCSR_of_impl rfl) (by decide)).1

/-- Splitting a successful decode into its header and coordinate stages. -/
theorem decode_coo_inv {lines : List String} {hdr : Header} {nzs : List Nonzero}
    {rest : List String} (h : decode_coo lines = .ok (hdr, nzs, rest)) :
    ∃ r1, read_header lines = .ok (hdr, r1) ∧
      read_nonzeros hdr hdr.num_nonzeros r1 = .ok (nzs, rest) := by
  unfold decode_coo at h
  split at h
  · exact Except.noConfusion h
  · rename_i hdr1 r1 hh
    split at h
    · exact Except.noConfusion h
    · rename_i nzs1 r2 hn
      injection h with h'
      injection h' with h1 h2
      injection h2 with h3 h4
      subst h1; subst h3; subst h4
      exact ⟨r1, hh, hn⟩

theorem filter_map_transpose (s : List Nonzero) (c : ℕ) :
    (s.map Nonzero.transpose).filter (fun x => x.row = c)
      = (s.filter (fun nz => nz.col = c)).map Nonzero.transpose := by
  induction s with
  | nil => rfl
  | cons a t ih =>
    simp only [List.map_cons, List.filter_cons, ih]
    by_cases h : a.col = c
    · simp [Nonzero.transpose, h]
    · simp [Nonzero.transpose, h]

theorem csr_of_sorted_nnz (hdr : Header) (s : List Nonzero) :
    (csr_of_sorted hdr s).num_nonzeros = s.length := by
  show (compress_loop s { cur := 0, offs := [0], minors := [], vals := [] }).vals.length
      = s.length
  rw [(compress_loop_arrays s _).2]
  simp

theorem csc_of_sorted_nnz (hdr : Header) (s : List Nonzero) :
    (csc_of_sorted hdr s).num_nonzeros = s.length := by
  show (compress_loop (s.map Nonzero.transpose)
      { cur := 0, offs := [0], minors := [], vals := [] }).vals.length = s.length
  rw [(compress_loop_arrays (s.map Nonzero.transpose) _).2]
  simp

/-- When the two decoded entries have strictly ordered column keys every
    admissible CSC result is the compression of the swapped pair. -/
theorem ReadCSC_unique_two_swapped {lines : List String} {hdr : Header}
    {rest : List String} {e1 e2 : Nonzero}
    (hdec : decode_coo lines = Except.ok (hdr, [e1, e2], rest))
    (hns : ¬ keyColLe e1 e2) :
    ∀ res, ReadCSC lines res → res = Except.ok (csc_of_sorted hdr [e2, e1]) := by
  intro res hres
  rw [ReadCSC_ok_iff hdec] at hres
  obtain ⟨s, hperm, hsort, heq⟩ := hres
  have hperm2 : List.Perm [e2, e1] s := (List.Perm.swap e1 e2 []).trans hperm
  rw [show s = [e2, e1] from sorted_two_unique hperm2 hsort hns] at heq
  exact heq

theorem flatMap_expand_length_sym (raw : List Nonzero) :
    (raw.flatMap (expand_symmetry SymmetryType.SYMMETRIC)).length
      = 2 * raw.countP (fun nz => nz.row ≠ nz.col)
        + raw.countP (fun nz => nz.row = nz.col) := by
  induction raw with
  | nil => rfl
  | cons nz t ih =>
    rw [List.flatMap_cons, List.length_append, ih, List.countP_cons, List.countP_cons]
    by_cases h : nz.row = nz.col
    · have he : expand_symmetry SymmetryType.SYMMETRIC nz = [nz] := by
        unfold expand_symmetry
        rw [if_neg]
        simp [h]
      rw [he]
      simp [h]
      omega
    · have he : expand_symmetry SymmetryType.SYMMETRIC nz = [nz, nz.transpose] := by
        unfold expand_symmetry
        rw [if_pos ⟨rfl, h⟩]
      rw [he]
      simp [h]
      omega

/-- C2: for a symmetric file the loop appends a mirrored entry for each
    off-diagonal data line and no mirror for a diagonal one, so the output
    entry count is `2k + d`; on the concrete 3×3 symmetric file with the
    single line `1 2 4.0` every admissible CSR result has
    `num_nonzeros = 2`, `major_offsets = [0, 1, 2, 2]`,
    `minor_indices = [1, 0]`. -/
theorem claim_c2_symmetry_doubling :
    (∀ (lines : List String) (hdr : Header) (nzs : List Nonzero) (rest : List String),
      decode_coo lines = Except.ok (hdr, nzs, rest) →
      hdr.symmetry = SymmetryType.SYMMETRIC →
      (∃ raw : List Nonzero, raw.length = hdr.num_nonzeros ∧
        nzs = raw.flatMap (expand_symmetry SymmetryType.SYMMETRIC) ∧
        nzs.length = 2 * raw.countP (fun nz => nz.row ≠ nz.col)
          + raw.countP (fun nz => nz.row = nz.col)) ∧
      (∀ m, ReadCSR lines (Except.ok m) → m.num_nonzeros = nzs.length)) ∧
    ReadCSR exfile_symmetric (Except.ok excsr_symmetric) ∧
    (∀ res, ReadCSR exfile_symmetric res → res = Except.ok excsr_symmetric) ∧
    excsr_symmetric.num_nonzeros = 2 ∧
    excsr_symmetric.row_offsets = [0, 1, 2, 2] ∧
    excsr_symmetric.col_indices = [1, 0] := by
  refine ⟨?_, ReadCSR_of_impl rfl, ?_, rfl, rfl, rfl⟩
  · intro lines hdr nzs rest hdec hsym
    obtain ⟨r1, _, hn⟩ := decode_coo_inv hdec
    obtain ⟨raw, hlen, hflat, _⟩ := read_nonzeros_expand hdr hdr.num_nonzeros r1 nzs rest hn
    rw [hsym] at hflat
    refine ⟨⟨raw, hlen, hflat, by rw [hflat, flatMap_expand_length_sym]⟩, ?_⟩
    intro m hm
    rw [ReadCSR_ok_iff hdec] at hm
    obtain ⟨s, hperm, _, heq⟩ := hm
    injection heq with heq'
    subst heq'
    rw [csr_of_sorted_nnz]
    exact hperm.length_eq.symm
  · intro res hres
    have h := ReadCSR_unique_two
      (show decode_coo exfile_symmetric = Except.ok
        (exhdr_symmetric, [{ row := 0, col := 1, value := 4 },
          { row := 1, col := 0, value := 4 }], []) from rfl)
      (by decide) res hres
    rw [h]
    rfl

/-- C5: for a data line of the right shape, the decode rejects it — with
    the out-of-bounds `FormatError`s — exactly when the parsed 1-indexed
    `row` is outside `[1, num_rows]` or the parsed 1-indexed `col` is
    outside `[1, num_cols]`; the check precedes the index shift, and an
    accepted entry is stored 0-indexed as `(row - 1, col - 1)`. -/
theorem claim_c5_bounds_check (vf : ValueFormat) (nrows ncols : ℕ) (line : String)
    (hshape : if vf = ValueFormat.PATTERN then (tokens line).length = 2
              else (tokens line).length = 3) :
    (parse_data_line vf nrows ncols line = .error "Bad Matrix: row out of bounds" ↔
      ¬(1 ≤ parse_int ((tokens line).getD 0 "") ∧
        parse_int ((tokens line).getD 0 "") ≤ nrows)) ∧
    (parse_data_line vf nrows ncols line = .error "Bad Matrix: col out of bounds" ↔
      ((1 ≤ parse_int ((tokens line).getD 0 "") ∧
          parse_int ((tokens line).getD 0 "") ≤ nrows) ∧
        ¬(1 ≤ parse_int ((tokens line).getD 1 "") ∧
          parse_int ((tokens line).getD 1 "") ≤ ncols))) ∧
    ((∃ e, parse_data_line vf nrows ncols line = .error e) ↔
      ¬((1 ≤ parse_int ((tokens line).getD 0 "") ∧
          parse_int ((tokens line).getD 0 "") ≤ nrows) ∧
        (1 ≤ parse_int ((tokens line).getD 1 "") ∧
          parse_int ((tokens line).getD 1 "") ≤ ncols))) ∧
    (∀ nz, parse_data_line vf nrows ncols line = .ok nz →
      nz = { row := parse_int ((tokens line).getD 0 "") - 1,
             col := parse_int ((tokens line).getD 1 "") - 1,
             value := if vf = ValueFormat.PATTERN then 1
                      else parse_num ((tokens line).getD 2 "") }) := by
  have hs1 : ¬(vf = ValueFormat.PATTERN ∧ (tokens line).length ≠ 2) := by
    by_cases hp : vf = ValueFormat.PATTERN
    · rw [if_pos hp] at hshape; exact fun hc => hc.2 hshape
    · exact fun hc => hp hc.1
  have hs2 : ¬(vf ≠ ValueFormat.PATTERN ∧ (tokens line).length ≠ 3) := by
    by_cases hp : vf = ValueFormat.PATTERN
    · exact fun hc => hc.1 hp
    · rw [if_neg hp] at hshape; exact fun hc => hc.2 hshape
  simp only [parse_data_line]
  rw [if_neg hs1, if_neg hs2]
  by_cases hrow : parse_int ((tokens line).getD 0 "") < 1 ∨
      parse_int ((tokens line).getD 0 "") > nrows
  · rw [if_pos hrow]
    refine ⟨iff_of_true rfl (by omega),
      iff_of_false (by intro hx; exact absurd (Except.error.inj hx) (by decide)) (by omega),
      iff_of_true ⟨_, rfl⟩ (by omega), ?_⟩
    intro nz h
    exact Except.noConfusion h
  · rw [if_neg hrow]
    by_cases hcol : parse_int ((tokens line).getD 1 "") < 1 ∨
        parse_int ((tokens line).getD 1 "") > ncols
    · rw [if_pos hcol]
      refine ⟨iff_of_false (by intro hx; exact absurd (Except.error.inj hx) (by decide))
          (by omega),
        iff_of_true rfl (by omega),
        iff_of_true ⟨_, rfl⟩ (by omega), ?_⟩
      intro nz h
      exact Except.noConfusion h
    · rw [if_neg hcol]
      refine ⟨iff_of_false (by intro hx; exact Except.noConfusion hx) (by omega),
        iff_of_false (by intro hx; exact Except.noConfusion hx) (by omega),
        iff_of_false (by rintro ⟨e, he⟩; exact Except.noConfusion he) (by omega), ?_⟩
      intro nz h
      injection h with h'
      exact h'.symm

theorem claim_c5_bounds_check_witness :
    parse_data_line ValueFormat.REAL 3 3 "0 1 3.0" = .error "Bad Matrix: row out of bounds" ∧
    parse_data_line ValueFormat.REAL 3 3 "4 1 3.0" = .error "Bad Matrix: row out of bounds" ∧
    parse_data_line ValueFormat.REAL 3 3 "2 3 6.5" =
      .ok { row := 1, col := 2, value := mkRat 13 2 } := by
  refine ⟨?_, ?_, ?_⟩
  · exact (claim_c5_bounds_check ValueFormat.REAL 3 3 "0 1 3.0" (by decide)).1.mpr (by decide)
  · exact (claim_c5_bounds_check ValueFormat.REAL 3 3 "4 1 3.0" (by decide)).1.mpr (by decide)
  · rfl

/-- C6: a `pattern` data line must have exactly 2 tokens and stores the
    multiplicative identity 1; a non-`pattern` data line must have exactly
    3 tokens.  The two ill-shaped `FormatError`s occur exactly in those
    cases. -/
theorem claim_c6_pattern (vf : ValueFormat) (nrows ncols : ℕ) (line : String) :
    (parse_data_line vf nrows ncols line = .error "Bad Matrix: ill-shaped pattern line" ↔
      vf = ValueFormat.PATTERN ∧ (tokens line).length ≠ 2) ∧
    (parse_data_line vf nrows ncols line = .error "Bad Matrix: ill-shaped value line" ↔
      vf ≠ ValueFormat.PATTERN ∧ (tokens line).length ≠ 3) ∧
    (∀ nz, parse_data_line vf nrows ncols line = .ok nz → vf = ValueFormat.PATTERN →
      nz.value = 1) := by
  simp only [parse_data_line]
  by_cases h1 : vf = ValueFormat.PATTERN ∧ (tokens line).length ≠ 2
  · rw [if_pos h1]
    refine ⟨iff_of_true rfl h1,
      iff_of_false (by intro hx; exact absurd (Except.error.inj hx) (by decide))
        (fun hc => hc.1 h1.1), ?_⟩
    intro nz h
    exact Except.noConfusion h
  · rw [if_neg h1]
    by_cases h2 : vf ≠ ValueFormat.PATTERN ∧ (tokens line).length ≠ 3
    · rw [if_pos h2]
      refine ⟨iff_of_false (by intro hx; exact absurd (Except.error.inj hx) (by decide)) h1,
        iff_of_true rfl h2, ?_⟩
      intro nz h
      exact Except.noConfusion h
    · rw [if_neg h2]
      by_cases hrow : parse_int ((tokens line).getD 0 "") < 1 ∨
          parse_int ((tokens line).getD 0 "") > nrows
      · rw [if_pos hrow]
        refine ⟨iff_of_false (by intro hx; exact absurd (Except.error.inj hx) (by decide)) h1,
          iff_of_false (by intro hx; exact absurd (Except.error.inj hx) (by decide)) h2, ?_⟩
        intro nz h
        exact Except.noConfusion h
      · rw [if_neg hrow]
        by_cases hcol : parse_int ((tokens line).getD 1 "") < 1 ∨
            parse_int ((tokens line).getD 1 "") > ncols
        · rw [if_pos hcol]
          refine ⟨iff_of_false (by intro hx; exact absurd (Except.error.inj hx) (by decide)) h1,
            iff_of_false (by intro hx; exact absurd (Except.error.inj hx) (by decide)) h2, ?_⟩
          intro nz h
          exact Except.noConfusion h
        · rw [if_neg hcol]
          refine ⟨iff_of_false (by intro hx; exact Except.noConfusion hx) h1,
            iff_of_false (by intro hx; exact Except.noConfusion hx) h2, ?_⟩
          intro nz h hp
          injection h with h'
          rw [← h']
          simp [hp]

theorem claim_c6_pattern_witness :
    parse_data_line ValueFormat.PATTERN 3 3 "2 3" =
      .ok { row := 1, col := 2, value := 1 } ∧
    ({ row := 1, col := 2, value := 1 } : Nonzero).value = 1 ∧
    parse_data_line ValueFormat.PATTERN 3 3 "2 3 1.0" =
      .error "Bad Matrix: ill-shaped pattern line" ∧
    parse_data_line ValueFormat.REAL 3 3 "2 3" =
      .error "Bad Matrix: ill-shaped value line" := by
  refine ⟨rfl, ?_, ?_, ?_⟩
  · exact (claim_c6_pattern ValueFormat.PATTERN 3 3 "2 3").2.2 _ rfl rfl
  · exact (claim_c6_pattern ValueFormat.PATTERN 3 3 "2 3 1.0").1.mpr ⟨rfl, by decide⟩
  · exact (claim_c6_pattern ValueFormat.REAL 3 3 "2 3").2.1.mpr ⟨by decide, by decide⟩

/-- C1 (amended): the structural invariant holds for every decode whose
    expanded entries stay inside the major dimension — in particular for
    every `general` file and for every square file.  (A symmetric file with
    `num_rows ≠ num_cols` can mirror an entry out of range and then break
    `offsets[last] = num_nonzeros`, see the counterexample.) -/
theorem claim_c1_structural_invariant
    (lines : List String) (hdr : Header) (nzs : List Nonzero) (rest : List String)
    (hdec : decode_coo lines = Except.ok (hdr, nzs, rest)) :
    (∀ m, ReadCSR lines (Except.ok m) → (∀ nz ∈ nzs, nz.row < hdr.num_rows) →
      m.num_rows = hdr.num_rows ∧
      m.row_offsets.length = m.num_rows + 1 ∧
      m.row_offsets.Sorted (· ≤ ·) ∧
      m.row_offsets.getD 0 0 = 0 ∧
      m.row_offsets.getD m.num_rows 0 = m.num_nonzeros ∧
      m.num_nonzeros = nzs.length ∧
      (∀ r, r < m.num_rows →
        List.Perm (major_slice m.row_offsets m.col_indices r)
          ((nzs.filter (fun nz => nz.row = r)).map (fun nz => nz.col)) ∧
        (major_slice m.row_offsets m.col_indices r).Sorted (· ≤ ·))) ∧
    (∀ m, ReadCSC lines (Except.ok m) → (∀ nz ∈ nzs, nz.col < hdr.num_cols) →
      m.num_cols = hdr.num_cols ∧
      m.col_offsets.length = m.num_cols + 1 ∧
      m.col_offsets.Sorted (· ≤ ·) ∧
      m.col_offsets.getD 0 0 = 0 ∧
      m.col_offsets.getD m.num_cols 0 = m.num_nonzeros ∧
      m.num_nonzeros = nzs.length ∧
      (∀ c, c < m.num_cols →
        List.Perm (major_slice m.col_offsets m.row_indices c)
          ((nzs.filter (fun nz => nz.col = c)).map (fun nz => nz.row)) ∧
        (major_slice m.col_offsets m.row_indices c).Sorted (· ≤ ·))) ∧
    ((hdr.symmetry = SymmetryType.GENERAL ∨ hdr.num_rows = hdr.num_cols) →
      ∀ nz ∈ nzs, nz.row < hdr.num_rows ∧ nz.col < hdr.num_cols) := by
  refine ⟨?_, ?_, ?_⟩
  · intro m hm hub
    rw [ReadCSR_ok_iff hdec] at hm
    obtain ⟨s, hperm, hsort, heq⟩ := hm
    injection heq with heq'
    subst heq'
    have hrows := sorted_keyRowLe_rows hsort
    have hubs : ∀ nz ∈ s, nz.row < hdr.num_rows :=
      fun nz hnz => hub nz (hperm.mem_iff.mpr hnz)
    obtain ⟨hlen, hsorted2, h0, hlast⟩ :=
      compress_offs_facts hdr.num_rows s hrows hubs
    have hnnz : (csr_of_sorted hdr s).num_nonzeros = s.length := csr_of_sorted_nnz hdr s
    refine ⟨rfl, hlen, hsorted2, h0, ?_, ?_, ?_⟩
    · rw [hnnz]
      exact hlast
    · rw [hnnz]
      exact hperm.length_eq.symm
    · intro r hr
      have hslice := compress_slice_eq hdr.num_rows s hrows hubs r hr
      constructor
      · show List.Perm (major_slice (compress hdr.num_rows s).offs
          (compress hdr.num_rows s).minors r) _
        rw [hslice]
        exact ((hperm.filter _).map _).symm
      · show (major_slice (compress hdr.num_rows s).offs
          (compress hdr.num_rows s).minors r).Sorted (· ≤ ·)
        rw [hslice]
        exact slice_cols_sorted s hsort r
  · intro m hm hub
    rw [ReadCSC_ok_iff hdec] at hm
    obtain ⟨s, hperm, hsort, heq⟩ := hm
    injection heq with heq'
    subst heq'
    have hrows := sorted_keyColLe_transpose hsort
    have hubs : ∀ x ∈ s.map Nonzero.transpose, x.row < hdr.num_cols := by
      intro x hx
      obtain ⟨y, hy, hxy⟩ := List.mem_map.mp hx
      subst hxy
      exact hub y (hperm.mem_iff.mpr hy)
    obtain ⟨hlen, hsorted2, h0, hlast⟩ :=
      compress_offs_facts hdr.num_cols (s.map Nonzero.transpose) hrows hubs
    have hnnz : (csc_of_sorted hdr s).num_nonzeros = s.length := csc_of_sorted_nnz hdr s
    refine ⟨rfl, hlen, hsorted2, h0, ?_, ?_, ?_⟩
    · rw [hnnz]
      show (compress hdr.num_cols (s.map Nonzero.transpose)).offs.getD hdr.num_cols 0
        = s.length
      rw [hlast]
      simp
    · rw [hnnz]
      exact hperm.length_eq.symm
    · intro c hc
      have hslice := compress_slice_eq hdr.num_cols (s.map Nonzero.transpose) hrows hubs c hc
      rw [filter_map_transpose, List.map_map] at hslice
      constructor
      · show List.Perm (major_slice (compress hdr.num_cols (s.map Nonzero.transpose)).offs
          (compress hdr.num_cols (s.map Nonzero.transpose)).minors c) _
        rw [hslice]
        exact ((hperm.filter _).map _).symm
      · show (major_slice (compress hdr.num_cols (s.map Nonzero.transpose)).offs
          (compress hdr.num_cols (s.map Nonzero.transpose)).minors c).Sorted (· ≤ ·)
        rw [hslice]
        exact slice_rows_sorted s hsort c
  · intro hcase
    obtain ⟨r1, _, hn⟩ := decode_coo_inv hdec
    rcases hcase with hgen | hsq
    · exact read_nonzeros_bounds_general hgen hn
    · exact read_nonzeros_bounds_square hsq hn

theorem claim_c1_structural_invariant_witness :
    decode_coo exfile_general = Except.ok (exhdr_general, exnzs_general, []) ∧
    (∀ nz ∈ exnzs_general, nz.row < exhdr_general.num_rows) ∧
    excsr_general.row_offsets.length = excsr_general.num_rows + 1 ∧
    excsr_general.row_offsets.getD excsr_general.num_rows 0
      = excsr_general.num_nonzeros := by
  have h := (claim_c1_structural_invariant exfile_general exhdr_general exnzs_general
    [] rfl).1 excsr_general (ReadCSR_of_impl rfl) (by decide)
  exact ⟨rfl, by decide, h.2.1, h.2.2.2.2.1⟩

/-- C1, counterexample: the symmetric 2×3 file with line `1 3 4.0` decodes
    successfully, but its mirrored entry has row index 2 ≥ num_rows, so the
    unique CSR result has `row_offsets = [0, 1, 1]` whose last entry 1 is
    not `num_nonzeros = 2`. -/
theorem claim_c1_counterexample :
    ReadCSR exfile_rect_symmetric (Except.ok excsr_rect) ∧
    (∀ res, ReadCSR exfile_rect_symmetric res → res = Except.ok excsr_rect) ∧
    ¬(excsr_rect.row_offsets.getD excsr_rect.num_rows 0 = excsr_rect.num_nonzeros) := by
  refine ⟨ReadCSR_of_impl rfl, ?_, by decide⟩
  intro res hres
  have h := ReadCSR_unique_two
    (show decode_coo exfile_rect_symmetric = Except.ok
      ({ symmetry := SymmetryType.SYMMETRIC, value_type := ValueFormat.REAL,
         num_rows := 2, num_cols := 3, num_nonzeros := 1 },
       [{ row := 0, col := 2, value := 4 }, { row := 2, col := 0, value := 4 }], [])
      from rfl)
    (by decide) res hres
  rw [h]
  rfl

/-- C9, counterexample: on the same symmetric 2×3 file the CSR and CSC
    results do not represent the same triples — the mirrored entry in row 2
    is beyond the CSR offsets array, while CSC retains it. -/
theorem claim_c9_counterexample :
    ReadCSR exfile_rect_symmetric (Except.ok excsr_rect) ∧
    ReadCSC exfile_rect_symmetric (Except.ok excsc_rect) ∧
    (∀ res, ReadCSR exfile_rect_symmetric res → res = Except.ok excsr_rect) ∧
    (∀ res, ReadCSC exfile_rect_symmetric res → res = Except.ok excsc_rect) ∧
    ¬ List.Perm (csr_triples excsr_rect) (csc_triples excsc_rect) := by
  refine ⟨ReadCSR_of_impl rfl, ReadCSC_of_impl rfl, ?_, ?_, by decide⟩
  · intro res hres
    have h := ReadCSR_unique_two
      (show decode_coo exfile_rect_symmetric = Except.ok
        ({ symmetry := SymmetryType.SYMMETRIC, value_type := ValueFormat.REAL,
           num_rows := 2, num_cols := 3, num_nonzeros := 1 },
         [{ row := 0, col := 2, value := 4 }, { row := 2, col := 0, value := 4 }], [])
        from rfl)
      (by decide) res hres
    rw [h]
    rfl
  · intro res hres
    have h := ReadCSC_unique_two_swapped
      (show decode_coo exfile_rect_symmetric = Except.ok
        ({ symmetry := SymmetryType.SYMMETRIC, value_type := ValueFormat.REAL,
           num_rows := 2, num_cols := 3, num_nonzeros := 1 },
         [{ row := 0, col := 2, value := 4 }, { row := 2, col := 0, value := 4 }], [])
        from rfl)
      (by decide) res hres
    rw [h]
    rfl

/-- C9 (amended): the two entry points fail identically, and on success
    agree on the dimensions and entry count; when every expanded entry is
    inside both dimensions (in particular for general or square files,
    cf. C1) the two outputs also represent the same multiset of
    `(row, col, value)` triples. -/
theorem claim_c9_csr_csc_agree
    (lines : List String) (r1 : Except String CSRMatrix) (r2 : Except String CSCMatrix)
    (h1 : ReadCSR lines r1) (h2 : ReadCSC lines r2) :
    (∀ e, r1 = .error e ↔ r2 = .error e) ∧
    (∀ m1 m2, r1 = .ok m1 → r2 = .ok m2 →
      m1.num_rows = m2.num_rows ∧ m1.num_cols = m2.num_cols ∧
      m1.num_nonzeros = m2.num_nonzeros) ∧
    (∀ hdr nzs rest m1 m2, decode_coo lines = .ok (hdr, nzs, rest) →
      r1 = .ok m1 → r2 = .ok m2 →
      (∀ nz ∈ nzs, nz.row < hdr.num_rows ∧ nz.col < hdr.num_cols) →
      List.Perm (csr_triples m1) (csc_triples m2)) := by
  cases hdec : decode_coo lines with
  | error e0 =>
    rw [ReadCSR_error_iff hdec] at h1
    rw [ReadCSC_error_iff hdec] at h2
    subst h1; subst h2
    refine ⟨?_, ?_, ?_⟩
    · intro e
      constructor
      · intro hx
        injection hx with h'
        rw [h']
      · intro hx
        injection hx with h'
        rw [h']
    · intro m1 m2 hm1
      exact Except.noConfusion hm1
    · intro hdr nzs rest m1 m2 hdec2
      exact Except.noConfusion hdec2
  | ok v =>
    obtain ⟨hdr0, nzs0, rest0⟩ := v
    rw [ReadCSR_ok_iff hdec] at h1
    rw [ReadCSC_ok_iff hdec] at h2
    obtain ⟨s1, hp1, hs1, he1⟩ := h1
    obtain ⟨s2, hp2, hs2, he2⟩ := h2
    subst he1; subst he2
    refine ⟨?_, ?_, ?_⟩
    · intro e
      constructor
      · intro hx; exact Except.noConfusion hx
      · intro hx; exact Except.noConfusion hx
    · intro m1 m2 hm1 hm2
      injection hm1 with hm1'
      injection hm2 with hm2'
      subst hm1'; subst hm2'
      refine ⟨rfl, rfl, ?_⟩
      rw [csr_of_sorted_nnz, csc_of_sorted_nnz, ← hp1.length_eq, ← hp2.length_eq]
    · intro hdr nzs rest m1 m2 hdec2 hm1 hm2 hbd
      injection hdec2 with hdec2'
      injection hdec2' with hh1 hh2
      injection hh2 with hh3 hh4
      subst hh1; subst hh3
      injection hm1 with hm1'
      injection hm2 with hm2'
      subst hm1'; subst hm2'
      have hub1 : ∀ nz ∈ s1, nz.row < hdr0.num_rows :=
        fun nz hnz => (hbd nz (hp1.mem_iff.mpr hnz)).1
      have hub2 : ∀ nz ∈ s2, nz.col < hdr0.num_cols :=
        fun nz hnz => (hbd nz (hp2.mem_iff.mpr hnz)).2
      rw [csr_triples_eq hdr0 s1 hs1 hub1, csc_triples_eq hdr0 s2 hs2 hub2]
      exact ((hp1.map _).symm).trans (hp2.map _)

/-- What the executable column-major reader produces on the concrete
    general file. -/
def excsc_general : CSCMatrix :=
  { num_rows := 3, num_cols := 3, num_nonzeros := 2,
    col_offsets := [0, 1, 1, 2], row_indices := [0, 1], values := [5, 7] }

theorem claim_c9_csr_csc_agree_witness :
    read_csr exfile_general = Except.ok excsr_general ∧
    read_csc exfile_general = Except.ok excsc_general ∧
    excsr_general.num_nonzeros = excsc_general.num_nonzeros ∧
    List.Perm (csr_triples excsr_general) (csc_triples excsc_general) := by
  have h := claim_c9_csr_csc_agree exfile_general
    (Except.ok excsr_general) (Except.ok excsc_general)
    (ReadCSR_of_impl rfl) (ReadCSC_of_impl rfl)
  refine ⟨rfl, rfl, (h.2.1 excsr_general excsc_general rfl rfl).2.2, ?_⟩
  exact h.2.2 exhdr_general exnzs_general [] excsr_general excsc_general rfl rfl rfl
    (by decide)

/-- C7: the header parser accepts a format line exactly when it lexes on
    space into 5 tokens reading `%%MatrixMarket matrix coordinate
    {real|integer|pattern} {general|symmetric}`; any other literal in any
    position is fatal to the whole decode. -/
theorem claim_c7_format_line (line : String) (rest : List String) :
    ((∃ p, read_format_line line = .ok p) ↔
      ((tokens line).length = 5 ∧
        (tokens line).getD 0 "" = "%%MatrixMarket" ∧
        (tokens line).getD 1 "" = "matrix" ∧
        (tokens line).getD 2 "" = "coordinate" ∧
        ((tokens line).getD 3 "" = "real" ∨ (tokens line).getD 3 "" = "integer" ∨
          (tokens line).getD 3 "" = "pattern") ∧
        ((tokens line).getD 4 "" = "general" ∨
          (tokens line).getD 4 "" = "symmetric"))) ∧
    (∀ e, read_format_line line = .error e →
      read_header (line :: rest) = .error e ∧ decode_coo (line :: rest) = .error e) := by
  refine ⟨read_format_line_ok_iff line, ?_⟩
  intro e he
  constructor
  · rw [read_header_eq]
    simp only [getLine]
    rw [he]
    rfl
  · exact @read_format_line_fatal (line :: rest) e he

theorem claim_c7_format_line_witness :
    (∃ p, read_format_line "%%MatrixMarket matrix coordinate real general" = .ok p) ∧
    read_header ["%%MatrixMarket matrix coordinate complex general", "3 3 0"]
      = .error "Bad Header: unknown value format" ∧
    decode_coo ["%%MatrixMarket matrix coordinate complex general", "3 3 0"]
      = .error "Bad Header: unknown value format" := by
  have h := (claim_c7_format_line "%%MatrixMarket matrix coordinate complex general"
    ["3 3 0"]).2 "Bad Header: unknown value format" rfl
  exact ⟨(claim_c7_format_line "%%MatrixMarket matrix coordinate real general" []).1.mpr
    (by decide), h.1, h.2⟩

/-- C8: after the format line the header parser skips every line starting
    with `%` and treats the first non-comment line as the dimension line,
    which must lex into exactly 3 tokens, parsed in order as `num_rows`,
    `num_cols`, `num_nonzeros`; a non-numeric token does not raise an error
    but silently parses to zero. -/
theorem claim_c8_dimension_line (fline : String) (comments : List String)
    (dline : String) (rest : List String) (vf : ValueFormat) (sym : SymmetryType)
    (hfmt : read_format_line fline = .ok (vf, sym))
    (hc : ∀ c ∈ comments, firstIsPercent c = true)
    (hd : firstIsPercent dline = false) :
    read_header (fline :: (comments ++ dline :: rest))
      = (if (tokens dline).length = 3
         then Except.ok
           ({ symmetry := sym, value_type := vf,
              num_rows := parse_int ((tokens dline).getD 0 ""),
              num_cols := parse_int ((tokens dline).getD 1 ""),
              num_nonzeros := parse_int ((tokens dline).getD 2 "") }, rest)
         else Except.error "Bad Header: missing matrix size") ∧
    (∀ s : String, noNumericPrefix s → parse_int s = 0 ∧ parse_num s = 0) := by
  refine ⟨?_, fun s hs => parse_no_number hs⟩
  rw [read_header_eq]
  simp only [getLine]
  rw [hfmt, skip_comments_append comments dline rest hc hd]
  dsimp only
  by_cases hlen : (tokens dline).length = 3
  · rw [if_pos hlen]
    simp only [read_dim_line]
    rw [if_neg (fun hne => hne hlen)]
    rfl
  · rw [if_neg hlen]
    simp only [read_dim_line]
    rw [if_pos hlen]
    rfl

theorem claim_c8_dimension_line_witness :
    read_header ["%%MatrixMarket matrix coordinate real general", "% note", "4 5 0",
        "1 1 2.0"]
      = Except.ok
          ({ symmetry := SymmetryType.GENERAL, value_type := ValueFormat.REAL,
             num_rows := 4, num_cols := 5, num_nonzeros := 0 }, ["1 1 2.0"]) ∧
    read_header ["%%MatrixMarket matrix coordinate real general", "4 5"]
      = Except.error "Bad Header: missing matrix size" ∧
    parse_int "abc" = 0 ∧ parse_num "abc" = 0 := by
  have h1 := (claim_c8_dimension_line "%%MatrixMarket matrix coordinate real general"
    ["% note"] "4 5 0" ["1 1 2.0"] ValueFormat.REAL SymmetryType.GENERAL rfl
    (by decide) (by decide)).1
  have h2 := claim_c8_dimension_line "%%MatrixMarket matrix coordinate real general"
    [] "4 5" [] ValueFormat.REAL SymmetryType.GENERAL rfl
    (by intro c hc; cases hc) (by decide)
  rw [if_pos (by decide)] at h1
  have h2a := h2.1
  rw [if_neg (by decide)] at h2a
  have h3 := h2.2 "abc" (by decide)
  exact ⟨h1, h2a, h3.1, h3.2⟩

/-- C10: a successful decode reads the header lines and exactly
    `num_nonzeros` data lines, and nothing after them: any file sharing
    that prefix decodes identically — as does every admissible sort
    behaviour — whatever trailing content follows. -/
theorem claim_c10_prefix_only
    (lines : List String) (hdr : Header) (nzs : List Nonzero) (rest : List String)
    (hdec : decode_coo lines = Except.ok (hdr, nzs, rest)) :
    ∃ hpre dpre, lines = hpre ++ dpre ++ rest ∧ dpre.length = hdr.num_nonzeros ∧
      (∀ ext, read_header (hpre ++ ext) = .ok (hdr, ext)) ∧
      (∀ ext, decode_coo (hpre ++ dpre ++ ext) = .ok (hdr, nzs, ext)) ∧
      (∀ ext res, ReadCSR (hpre ++ dpre ++ ext) res ↔ ReadCSR lines res) ∧
      (∀ ext res, ReadCSC (hpre ++ dpre ++ ext) res ↔ ReadCSC lines res) := by
  obtain ⟨hpre, dpre, hsplit, hdlen, hexthdr, hextdec⟩ := decode_coo_append hdec
  refine ⟨hpre, dpre, hsplit, hdlen, hexthdr, hextdec, ?_, ?_⟩
  · intro ext res
    unfold ReadCSR
    rw [hdec, hextdec ext]
  · intro ext res
    unfold ReadCSC
    rw [hdec, hextdec ext]

theorem claim_c10_prefix_only_witness :
    decode_coo (exfile_general ++ ["% trailing junk", "99 99 99"])
      = Except.ok (exhdr_general, exnzs_general, ["% trailing junk", "99 99 99"]) ∧
    (∃ hpre dpre,
      exfile_general ++ ["% trailing junk", "99 99 99"]
          = hpre ++ dpre ++ ["% trailing junk", "99 99 99"] ∧
      dpre.length = exhdr_general.num_nonzeros ∧
      (∀ ext, read_header (hpre ++ ext) = .ok (exhdr_general, ext)) ∧
      (∀ ext, decode_coo (hpre ++ dpre ++ ext) = .ok (exhdr_general, exnzs_general, ext)) ∧
      (∀ ext res, ReadCSR (hpre ++ dpre ++ ext) res ↔
        ReadCSR (exfile_general ++ ["% trailing junk", "99 99 99"]) res) ∧
      (∀ ext res, ReadCSC (hpre ++ dpre ++ ext) res ↔
        ReadCSC (exfile_general ++ ["% trailing junk", "99 99 99"]) res)) :=
  ⟨rfl, claim_c10_prefix_only (exfile_general ++ ["% trailing junk", "99 99 99"])
    exhdr_general exnzs_general ["% trailing junk", "99 99 99"] rfl⟩

example : tokens "" = [] := by decide
example : parse_int " 42x" = 42 := by decide
example : parse_int "abc" = 0 := by decide
example : parse_num "5.0" = 5 := by decide
example : parse_num "-2.5" = mkRat (-5) 2 := by decide

example :
    read_csr ["%%MatrixMarket matrix coordinate real general", "3 3 2",
              "1 1 5.0", "2 3 7.0"]
      = .ok { num_rows := 3, num_cols := 3, num_nonzeros := 2,
              row_offsets := [0, 1, 2, 2], col_indices := [0, 2],
              values := [5, 7] } := by
  rfl

end MatrixMarket
